import Mathlib

/-!
# Verification of the cairo-io-serde schema-driven codec

Shallow embedding of the `cairo-io-serde` crate: the JSON → flat field-element
encoder (`src/cairo_input.rs`), the schema data model (`src/schema.rs`), the
string helper (`src/utils.rs`), and a self-contained model of the enum- and
dictionary-decoding arms of `serialize_output_inner` (`src/cairo_output.rs`).

Field elements (`Felt252`) are members of the prime field of order
`P = 2^251 + 17·2^192 + 1`; we model them as natural numbers `< P`, with
explicit reduction `% P` where the Rust code converts machine integers into
field elements.
-/

/-- The Stark field prime: the order of the `Felt252` field used by cairo-vm. -/
def feltPrime : Nat := 2 ^ 251 + 17 * 2 ^ 192 + 1

/-- `Felt252::from` on a non-negative machine integer: reduce mod the prime. -/
def feltOfNat (n : Nat) : Nat := n % feltPrime

/-- `Felt252::from` on a signed machine integer: reduce mod the prime
(negative values map to `P - |v|`). `%` on `Int` is Euclidean here, so the
result is always in `[0, P)`. -/
def feltOfInt (i : Int) : Nat := (i % (feltPrime : Int)).toNat

/-- `cairo_vm::math_utils::signed_felt`: interpret a field element as a signed
integer, mapping values above `(P-1)/2` to negatives by subtracting `P`. -/
def signedFelt (f : Nat) : Int :=
  if f ≤ (feltPrime - 1) / 2 then (f : Int) else (f : Int) - (feltPrime : Int)

/-- A `serde_json` number: non-negative integers are stored as `u64`,
negative integers as `i64`, and everything else as `f64`. The `floatN`
constructor carries the exact rational value of the (finite) double. -/
inductive JsonNum where
  | uintN (n : Nat)
  | intN (i : Int)
  | floatN (q : Rat)

/-- A `serde_json::Value`. Objects are ordered association lists; `serde_json`
itself stores a map keyed by strings, looked up with `Value::get`. -/
inductive Json where
  | null
  | bool (b : Bool)
  | num (n : JsonNum)
  | str (s : String)
  | arr (elems : List Json)
  | obj (fields : List (String × Json))

/-- First-match association lookup inside a JSON object. -/
def lookupField : List (String × Json) → String → Option Json
  | [], _ => none
  | (k, v) :: rest, key => if k = key then some v else lookupField rest key

/-- `Value::get` with a string index: only objects yield a value. -/
def jsonGet : Json → String → Option Json
  | .obj fields, key => lookupField fields key
  | _, _ => none

/-- `Value::as_u64`: only numbers stored as `u64` succeed. -/
def Json.asU64 : Json → Option Nat
  | .num (.uintN n) => some n
  | _ => none

/-- `Value::as_i64`: `u64`-stored values succeed when they fit in `i64`;
`i64`-stored values always succeed; floats never do. -/
def Json.asI64 : Json → Option Int
  | .num (.uintN n) => if n ≤ 2 ^ 63 - 1 then some (n : Int) else none
  | .num (.intN i) => some i
  | _ => none

/-- `Value::as_f64`: succeeds on every JSON number. The `u64`/`i64` → `f64`
conversion is exact below `2^53`; above that it rounds, but every integer in
`(2^31, 2^64)` scales past the `i64` saturation bound of the fixed-point cast
either way, so modelling the conversion as exact is output-faithful for the
one place this accessor is used (the `F64` encoder arm). -/
def Json.asF64 : Json → Option Rat
  | .num (.uintN n) => some (n : Rat)
  | .num (.intN i) => some (i : Rat)
  | .num (.floatN q) => some q
  | _ => none

/-- `Value::as_str`. -/
def Json.asStr : Json → Option String
  | .str s => some s
  | _ => none

/-- `Value::as_bool`. -/
def Json.asBool : Json → Option Bool
  | .bool b => some b
  | _ => none

/-- `Value::as_array`. -/
def Json.asArr : Json → Option (List Json)
  | .arr xs => some xs
  | _ => none

/-- `schema.rs` `SchemaType`: the four type descriptors a schema field can
carry. -/
inductive SchemaType where
  | Primitive (name : String)
  | Array (item_type : SchemaType)
  | Span (item_type : SchemaType)
  | Struct (name : String)

/-- `schema.rs` `NamedSchemaType`: one named, typed field. -/
structure NamedSchemaType where
  name : String
  ty : SchemaType

/-- `schema.rs` `SchemaDef`: an ordered list of fields. -/
structure SchemaDef where
  fields : List NamedSchemaType

/-- `schema.rs` `Schema`: record name → record map plus the two root names.
The Rust `HashMap` is modelled as an association list with first-match
lookup. -/
structure Schema where
  schemas : List (String × SchemaDef)
  cairo_input : String
  cairo_output : String

/-- `schema.schemas.get(name)`. -/
def lookupSchema (schema : Schema) (name : String) : Option SchemaDef :=
  match schema.schemas.find? (fun p => p.1 = name) with
  | some p => some p.2
  | none => none

/-- `lib.rs` `FuncArg`: a VM call argument, either a contiguous block or a
single scalar slot. -/
inductive FuncArg where
  | Array (xs : List Nat)
  | Single (f : Nat)
  deriving DecidableEq

/-- `lib.rs` `FuncArgs`. -/
structure FuncArgs where
  args : List FuncArg
  deriving DecidableEq

/-- The encoder's error cases. The Rust code returns formatted `String`s; we
model each message's identity together with the data interpolated into it
(the `missingField` message also interpolates the JSON document itself,
which we do not carry). -/
inductive ParseErr where
  | schemaNotFound (name : String)
  | missingField (field schemaName : String)
  | expectedUnsigned (name : String)
  | expectedSigned (name : String)
  | expectedFloat (name : String)
  | expectedString
  | expectedStringByteArray
  | expectedBool
  | expectedArray
  | unknownPrimitive (name : String)
  | feltParseFailure
  deriving DecidableEq

/-- The character `-`. -/
def minusChar : Char := Char.ofNat 45

/-- Character-list prefix test. -/
def listPfx : List Char → List Char → Bool
  | [], _ => true
  | _ :: _, [] => false
  | p :: ps, c :: cs => p == c && listPfx ps cs

/-- Models `str::starts_with`, written on the character list (equivalent, and
it evaluates inside the kernel, unlike `String.startsWith`). -/
def strStarts (s pre : String) : Bool := listPfx pre.toList s.toList

/-- `utils.rs` `is_valid_number`: every character is a decimal digit, except
that the first may be `-`. (Note: the empty string and a bare `-` pass this
check.) -/
def is_valid_number (s : String) : Bool :=
  s.toList.enum.all (fun p => p.2.isDigit || (p.1 == 0 && p.2 == minusChar))

/-- Numeric value of a decimal digit character. -/
def digitVal (c : Char) : Nat := c.toNat - 48

/-- Numeric value of a hexadecimal digit character (either case). -/
def hexDigitVal (c : Char) : Nat :=
  if c.isDigit then c.toNat - 48
  else if 97 ≤ c.toNat then c.toNat - 87
  else c.toNat - 55

/-- Left-to-right fold of decimal digits. -/
def decimalToNat (ds : List Char) : Nat := ds.foldl (fun a c => a * 10 + digitVal c) 0

/-- Left-to-right fold of hexadecimal digits. -/
def hexToNat (ds : List Char) : Nat := ds.foldl (fun a c => a * 16 + hexDigitVal c) 0

/-- Lower-case hexadecimal digit for a value `< 16`. -/
def hexChar (n : Nat) : Char :=
  if n < 10 then Char.ofNat (48 + n) else Char.ofNat (87 + n)

/-- `hex::encode`: two lower-case hex digits per byte. -/
def hexEncode (bs : List Nat) : List Char :=
  bs.foldr (fun b acc => hexChar (b / 16) :: hexChar (b % 16) :: acc) []

/-- The UTF-8 encoding of one code point. -/
def utf8Bytes (c : Char) : List Nat :=
  let n := c.toNat
  if n < 128 then [n]
  else if n < 2048 then [192 + n / 64, 128 + n % 64]
  else if n < 65536 then [224 + n / 4096, 128 + (n / 64) % 64, 128 + n % 64]
  else [240 + n / 262144, 128 + (n / 4096) % 64, 128 + (n / 64) % 64, 128 + n % 64]

/-- The UTF-8 bytes of a string (`str::as_bytes`). -/
def bytesOfString (s : String) : List Nat :=
  s.toList.foldr (fun c acc => utf8Bytes c ++ acc) []

/-- Hexadecimal digit test (either case). -/
def isHexDigitChar (c : Char) : Bool :=
  c.isDigit || (97 ≤ c.toNat && c.toNat ≤ 102) || (65 ≤ c.toNat && c.toNat ≤ 70)

/-- Models `Felt252::from_str` (from the `starknet-types-core` dependency of
cairo-vm): a `0x`-prefixed string parses its remainder as hexadecimal digits,
anything else parses as decimal with an optional single leading `-`; an empty
digit sequence or a non-digit character is an error; values reduce modulo the
field prime. -/
def feltFromStr (s : String) : Except ParseErr Nat :=
  if strStarts s "0x" then
    let ds := s.toList.drop 2
    if ds ≠ [] ∧ ds.all isHexDigitChar then .ok (feltOfNat (hexToNat ds))
    else .error .feltParseFailure
  else if strStarts s "-" then
    let ds := s.toList.drop 1
    if ds ≠ [] ∧ ds.all Char.isDigit then .ok (feltOfInt (-(decimalToNat ds : Int)))
    else .error .feltParseFailure
  else
    let ds := s.toList
    if ds ≠ [] ∧ ds.all Char.isDigit then .ok (feltOfNat (decimalToNat ds))
    else .error .feltParseFailure

/-- The `felt252` arm of `parse_value`: numeric-looking strings (and anything
`0x`-prefixed) parse numerically, all other strings are packed as the hex
value of their UTF-8 bytes ("short string"). -/
def feltEncodeStr (s : String) : Except ParseErr Nat :=
  if is_valid_number s || strStarts s "0x" then feltFromStr s
  else feltFromStr (String.mk (Char.ofNat 48 :: Char.ofNat 120 :: hexEncode (bytesOfString s)))

/-- Truncation toward zero of a rational. -/
def ratTrunc (q : Rat) : Int := if 0 ≤ q then ⌊q⌋ else ⌈q⌉

/-- Rust's saturating `as i64` cast applied to the (exact) `f64` product
`num * 2^32`. Multiplying a finite double by `2^32` only shifts its exponent,
so the product is the exact rational unless it overflows `f64` range — and in
that regime the cast saturates to the same `i64` bound either way. The cast
itself truncates toward zero and clamps to the `i64` range. -/
def f64AsI64 (q : Rat) : Int :=
  if q < -(2 ^ 63) then -(2 ^ 63)
  else if (2 ^ 63 - 1 : Rat) < q then 2 ^ 63 - 1
  else ratTrunc q

/-- Splits a byte list into its full 31-byte chunks
(cainome `ByteArray::from_string` word packing). -/
def chunkBytes (l : List Nat) : List (List Nat) :=
  if h : 31 ≤ l.length then (l.take 31) :: chunkBytes (l.drop 31) else []
termination_by l.length
decreasing_by simp; omega

/-- The trailing bytes (0–30 of them) left after the full 31-byte chunks. -/
def restBytes (l : List Nat) : List Nat :=
  if h : 31 ≤ l.length then restBytes (l.drop 31) else l
termination_by l.length
decreasing_by simp; omega

/-- Big-endian packing of bytes into one number. -/
def packBE (bs : List Nat) : Nat := bs.foldl (fun a b => a * 256 + b) 0

/-- `cairo_input.rs` `parse_byte_array` (using cainome's
`ByteArray::from_string`, which chunks the UTF-8 bytes into 31-byte big-endian
words): emits `[word_count, words.., pending_word, pending_word_len]`. -/
def parse_byte_array (s : String) : List Nat :=
  let bs := bytesOfString s
  let data := (chunkBytes bs).map (fun w => feltOfNat (packBE w))
  feltOfNat data.length :: (data ++ [feltOfNat (packBE (restBytes bs)), feltOfNat (restBytes bs).length])

/-- Auxiliary: a looked-up object member is structurally smaller. -/
theorem sizeOf_lookupField {fields : List (String × Json)} {key : String} {w : Json}
    (h : lookupField fields key = some w) : sizeOf w < sizeOf fields := by
  induction fields with
  | nil => simp [lookupField] at h
  | cons p rest ih =>
    obtain ⟨k, v⟩ := p
    simp only [lookupField] at h
    by_cases hk : k = key
    · simp [hk] at h
      subst h
      simp
      omega
    · simp [hk] at h
      have := ih h
      simp
      omega

/-- Auxiliary: `jsonGet` returns a structurally smaller value. -/
theorem sizeOf_jsonGet {v : Json} {key : String} {w : Json}
    (h : jsonGet v key = some w) : sizeOf w < sizeOf v := by
  cases v with
  | obj fields =>
    simp only [jsonGet] at h
    have := sizeOf_lookupField h
    simp
    omega
  | null => simp [jsonGet] at h
  | bool b => simp [jsonGet] at h
  | num n => simp [jsonGet] at h
  | str s => simp [jsonGet] at h
  | arr xs => simp [jsonGet] at h

/-- Auxiliary: the element list of a JSON array is structurally smaller. -/
theorem sizeOf_asArr {v : Json} {xs : List Json}
    (h : v.asArr = some xs) : sizeOf xs < sizeOf v := by
  cases v with
  | arr elems =>
    simp only [Json.asArr, Option.some.injEq] at h
    subst h
    simp only [Json.arr.sizeOf_spec]
    omega
  | null => simp [Json.asArr] at h
  | bool b => simp [Json.asArr] at h
  | num n => simp [Json.asArr] at h
  | str s => simp [Json.asArr] at h
  | obj fields => simp [Json.asArr] at h

mutual

/-- `cairo_input.rs` `parse_value`: encode one JSON value against one schema
type, producing the flat field-element sequence. -/
def parse_value (value : Json) (ty : SchemaType) (schema : Schema) :
    Except ParseErr (List Nat) :=
  match ty with
  | .Primitive name =>
    match name with
    | "u64" | "u32" | "u16" | "u8" =>
      match value.asU64 with
      | some num => .ok [feltOfNat num]
      | none => .error (.expectedUnsigned name)
    | "i64" | "i32" | "i16" | "i8" =>
      match value.asI64 with
      | some num => .ok [feltOfInt num]
      | none => .error (.expectedSigned name)
    | "F64" =>
      match value.asF64 with
      | some num => .ok [feltOfInt (f64AsI64 (num * 2 ^ 32))]
      | none => .error (.expectedFloat name)
    | "felt252" =>
      match value.asStr with
      | some s => (feltEncodeStr s).map (fun f => [f])
      | none => .error .expectedString
    | "ByteArray" =>
      match value.asStr with
      | some s => .ok (parse_byte_array s)
      | none => .error .expectedStringByteArray
    | "bool" =>
      match value.asBool with
      | some b => .ok [feltOfNat (if b then 1 else 0)]
      | none => .error .expectedBool
    | _ => .error (.unknownPrimitive name)
  | .Array item_type | .Span item_type =>
    match harr : value.asArr with
    | some xs =>
      (parse_elems xs item_type schema).map (fun out => feltOfNat xs.length :: out)
    | none => .error .expectedArray
  | .Struct name => parse_schema value name schema
termination_by (sizeOf value, 2, 0)
decreasing_by
  all_goals simp_wf
  all_goals first
    | exact Prod.Lex.left _ _ (sizeOf_asArr harr)
    | exact Prod.Lex.left _ _ (sizeOf_jsonGet h)
    | exact Prod.Lex.left _ _ (by omega)
    | exact Prod.Lex.right _ (Prod.Lex.left _ _ (by omega))
    | exact Prod.Lex.right _ (Prod.Lex.right _ (by omega))

/-- `cairo_input.rs` `parse_schema`: resolve a record name and encode the
fields of the JSON value against it, in declaration order. -/
def parse_schema (value : Json) (schema_name : String) (schema : Schema) :
    Except ParseErr (List Nat) :=
  match lookupSchema schema schema_name with
  | none => .error (.schemaNotFound schema_name)
  | some schema_def => parse_fields value schema_def.fields schema_name schema
termination_by (sizeOf value, 1, 0)
decreasing_by
  all_goals simp_wf
  all_goals first
    | exact Prod.Lex.left _ _ (sizeOf_asArr harr)
    | exact Prod.Lex.left _ _ (sizeOf_jsonGet h)
    | exact Prod.Lex.left _ _ (by omega)
    | exact Prod.Lex.right _ (Prod.Lex.left _ _ (by omega))
    | exact Prod.Lex.right _ (Prod.Lex.right _ (by omega))

/-- The field loop of `parse_schema`: look each field up by name (error
`missingField` if absent), encode it, and concatenate in declaration order. -/
def parse_fields (value : Json) (fields : List NamedSchemaType)
    (schema_name : String) (schema : Schema) : Except ParseErr (List Nat) :=
  match fields with
  | [] => .ok []
  | field :: rest =>
    match h : jsonGet value field.name with
    | none => .error (.missingField field.name schema_name)
    | some field_value => do
      let parsed ← parse_value field_value field.ty schema
      let more ← parse_fields value rest schema_name schema
      .ok (parsed ++ more)
termination_by (sizeOf value, 0, sizeOf fields)
decreasing_by
  all_goals simp_wf
  all_goals first
    | exact Prod.Lex.left _ _ (sizeOf_asArr harr)
    | exact Prod.Lex.left _ _ (sizeOf_jsonGet h)
    | exact Prod.Lex.left _ _ (by omega)
    | exact Prod.Lex.right _ (Prod.Lex.left _ _ (by omega))
    | exact Prod.Lex.right _ (Prod.Lex.right _ (by omega))

/-- The element loop of the `Array`/`Span` arm of `parse_value`: encode each
element in order and concatenate. -/
def parse_elems (items : List Json) (item_type : SchemaType) (schema : Schema) :
    Except ParseErr (List Nat) :=
  match items with
  | [] => .ok []
  | item :: rest => do
    let parsed ← parse_value item item_type schema
    let more ← parse_elems rest item_type schema
    .ok (parsed ++ more)
termination_by (sizeOf items, 0, 0)
decreasing_by
  all_goals simp_wf
  all_goals first
    | exact Prod.Lex.left _ _ (sizeOf_asArr harr)
    | exact Prod.Lex.left _ _ (sizeOf_jsonGet h)
    | exact Prod.Lex.left _ _ (by omega)
    | exact Prod.Lex.right _ (Prod.Lex.left _ _ (by omega))
    | exact Prod.Lex.right _ (Prod.Lex.right _ (by omega))

end

/-- The `json.as_object().map_or(false, |obj| obj.is_empty())` early-exit test
of `process_json_args`. -/
def isEmptyObj : Json → Bool
  | .obj fields => fields.isEmpty
  | _ => false

/-- `cairo_input.rs` `process_json_args` (on an already-parsed JSON value): an
empty JSON object yields no arguments; otherwise the input root record is
encoded into one flat sequence wrapped as a single whole-array argument. -/
def processJsonArgs (json : Json) (schema : Schema) : Except ParseErr FuncArgs :=
  if isEmptyObj json then .ok ⟨[]⟩
  else (parse_schema json schema.cairo_input schema).map
    (fun parsed => ⟨[FuncArg.Array parsed]⟩)

/-! ## Representability side conditions and recursion-depth bookkeeping -/

mutual

/-- Machine-representability of a JSON document: `u64`-stored numbers fit in
64 bits, `i64`-stored numbers are negative 64-bit values (as `serde_json`
guarantees), strings and hence byte-array word counts fit a `usize`, and
array lengths stay below the field prime (so the emitted count felt is the
length itself). -/
def jsonWF : Json → Bool
  | .null => true
  | .bool _ => true
  | .num (.uintN n) => decide (n < 2 ^ 64)
  | .num (.intN i) => decide (-(2 ^ 63) ≤ i ∧ i < 0)
  | .num (.floatN _) => true
  | .str s => decide ((bytesOfString s).length < 2 ^ 64)
  | .arr xs => decide (xs.length < feltPrime) && jsonWFList xs
  | .obj fs => jsonWFFields fs

/-- `jsonWF` over an array's elements. -/
def jsonWFList : List Json → Bool
  | [] => true
  | x :: xs => jsonWF x && jsonWFList xs

/-- `jsonWF` over an object's members. -/
def jsonWFFields : List (String × Json) → Bool
  | [] => true
  | (_, v) :: fs => jsonWF v && jsonWFFields fs

end

mutual

/-- Nesting depth of a JSON value; used as a sufficient fuel bound for the
reference decoder. -/
def jsonDepth : Json → Nat
  | .arr xs => 2 + jsonDepthList xs
  | .obj fs => 2 + jsonDepthFields fs
  | _ => 1

/-- Maximum depth over an array's elements. -/
def jsonDepthList : List Json → Nat
  | [] => 0
  | x :: xs => max (jsonDepth x) (jsonDepthList xs)

/-- Maximum depth over an object's members. -/
def jsonDepthFields : List (String × Json) → Nat
  | [] => 0
  | (_, v) :: fs => max (jsonDepth v) (jsonDepthFields fs)

end

mutual

/-- No fixed-point saturation: every JSON number encoded against an `F64`
primitive has `r · 2^32` inside the `i64` range, so Rust's saturating
`as i64` cast is plain truncation there. Mirrors the traversal of
`parse_value`. -/
def f64ok (value : Json) (ty : SchemaType) (schema : Schema) : Bool :=
  match ty with
  | .Primitive name =>
    if name = "F64" then
      match value.asF64 with
      | some q => decide (-(2 ^ 63 : Rat) ≤ q * 2 ^ 32 ∧ (q * 2 ^ 32 : Rat) ≤ 2 ^ 63 - 1)
      | none => true
    else true
  | .Array t | .Span t =>
    match harr : value.asArr with
    | some xs => f64okList xs t schema
    | none => true
  | .Struct name =>
    match lookupSchema schema name with
    | some d => f64okFields value d.fields schema
    | none => true
termination_by (sizeOf value, 2, 0)
decreasing_by
  all_goals simp_wf
  all_goals first
    | exact Prod.Lex.left _ _ (sizeOf_asArr harr)
    | exact Prod.Lex.right _ (Prod.Lex.left _ _ (by omega))

/-- `f64ok` over an array's elements. -/
def f64okList (items : List Json) (ty : SchemaType) (schema : Schema) : Bool :=
  match items with
  | [] => true
  | item :: rest => f64ok item ty schema && f64okList rest ty schema
termination_by (sizeOf items, 0, 0)
decreasing_by
  all_goals simp_wf
  all_goals exact Prod.Lex.left _ _ (by omega)

/-- `f64ok` over a record's fields. -/
def f64okFields (value : Json) (fields : List NamedSchemaType) (schema : Schema) : Bool :=
  match fields with
  | [] => true
  | f :: rest =>
    (match h : jsonGet value f.name with
     | some w => f64ok w f.ty schema
     | none => true) && f64okFields value rest schema
termination_by (sizeOf value, 0, sizeOf fields)
decreasing_by
  all_goals simp_wf
  all_goals first
    | exact Prod.Lex.left _ _ (sizeOf_jsonGet h)
    | exact Prod.Lex.right _ (Prod.Lex.right _ (by omega))

end

/-! ## The reference decoder (modelled from the spec) and scalar agreement -/

/-- The result of the reference decode: a tree of recovered scalar values. -/
inductive DecVal where
  | uintD (n : Nat)
  | intD (i : Int)
  | feltD (f : Nat)
  | fixedD (q : Rat)
  | boolD (b : Bool)
  | bytesD (words : List Nat) (pending : Nat) (plen : Nat)
  | arrD (xs : List DecVal)
  | objD (fs : List (String × DecVal))

mutual

/-- Modelled from the spec: the "reference decode against the same shape"
(§8) that inverts the encoder over a flat field-element sequence — unsigned
scalars read one felt, signed scalars read one felt through `signed_felt`,
fixed-point decimals read one felt and divide by `2^32` (§3), booleans read
one felt, byte strings read their chunked convention, arrays read a count
then that many elements, records decode their schema fields in declaration
order. `fuel` bounds recursion depth, since schema references may be cyclic;
the theorems quantify over every sufficient fuel. -/
def refDecode (fuel : Nat) (ty : SchemaType) (schema : Schema) (st : List Nat) :
    Option (DecVal × List Nat) :=
  match fuel with
  | 0 => none
  | fuel + 1 =>
    match ty with
    | .Primitive name =>
      match name with
      | "u64" | "u32" | "u16" | "u8" =>
        match st with
        | f :: rest => some (.uintD f, rest)
        | [] => none
      | "i64" | "i32" | "i16" | "i8" =>
        match st with
        | f :: rest => some (.intD (signedFelt f), rest)
        | [] => none
      | "F64" =>
        match st with
        | f :: rest => some (.fixedD ((signedFelt f : Rat) / 2 ^ 32), rest)
        | [] => none
      | "felt252" =>
        match st with
        | f :: rest => some (.feltD f, rest)
        | [] => none
      | "bool" =>
        match st with
        | f :: rest => some (.boolD (f != 0), rest)
        | [] => none
      | "ByteArray" =>
        match st with
        | c :: rest =>
          if c ≤ rest.length then
            match rest.drop c with
            | pw :: pl :: rest2 => some (.bytesD (rest.take c) pw pl, rest2)
            | _ => none
          else none
        | [] => none
      | _ => none
    | .Array t | .Span t =>
      match st with
      | c :: rest =>
        match refDecodeElems fuel c t schema rest with
        | some (ds, rest2) => some (.arrD ds, rest2)
        | none => none
      | [] => none
    | .Struct name =>
      match lookupSchema schema name with
      | some d =>
        match refDecodeFields fuel d.fields schema st with
        | some (fs, rest) => some (.objD fs, rest)
        | none => none
      | none => none
termination_by (fuel, 0)
decreasing_by
  all_goals exact Prod.Lex.left _ _ (by omega)

/-- Reference decode of `count` consecutive array elements. -/
def refDecodeElems (fuel : Nat) (count : Nat) (ty : SchemaType) (schema : Schema)
    (st : List Nat) : Option (List DecVal × List Nat) :=
  match count with
  | 0 => some ([], st)
  | c + 1 =>
    match refDecode fuel ty schema st with
    | some (d, st2) =>
      match refDecodeElems fuel c ty schema st2 with
      | some (ds, st3) => some (d :: ds, st3)
      | none => none
    | none => none
termination_by (fuel, count + 1)
decreasing_by
  all_goals exact Prod.Lex.right _ (by omega)

/-- Reference decode of a record's fields in declaration order. -/
def refDecodeFields (fuel : Nat) (fields : List NamedSchemaType) (schema : Schema)
    (st : List Nat) : Option (List (String × DecVal) × List Nat) :=
  match fields with
  | [] => some ([], st)
  | f :: rest =>
    match refDecode fuel f.ty schema st with
    | some (d, st2) =>
      match refDecodeFields fuel rest schema st2 with
      | some (ds, st3) => some ((f.name, d) :: ds, st3)
      | none => none
    | none => none
termination_by (fuel, fields.length + 1)
decreasing_by
  all_goals exact Prod.Lex.right _ (by simp only [List.length_cons]; omega)

end

mutual

/-- The decoded value reproduces the original scalar values of the JSON
document: exactly for unsigned/signed integers, booleans and field elements;
to within `2^-32` for fixed-point decimals; byte strings reproduce their
chunked-convention components; arrays element-wise; records field-wise in
declaration order. -/
inductive Agrees : Schema → Json → SchemaType → DecVal → Prop where
  | auint (s : Schema) (jn : JsonNum) (name : String) (n : Nat) :
      (name = "u64" ∨ name = "u32" ∨ name = "u16" ∨ name = "u8") →
      (Json.num jn).asU64 = some n →
      Agrees s (.num jn) (.Primitive name) (.uintD n)
  | aint (s : Schema) (jn : JsonNum) (name : String) (i : Int) :
      (name = "i64" ∨ name = "i32" ∨ name = "i16" ∨ name = "i8") →
      (Json.num jn).asI64 = some i →
      Agrees s (.num jn) (.Primitive name) (.intD i)
  | afix (s : Schema) (jn : JsonNum) (q qd : Rat) :
      (Json.num jn).asF64 = some q →
      |q - qd| < (1 : Rat) / 2 ^ 32 →
      Agrees s (.num jn) (.Primitive "F64") (.fixedD qd)
  | afelt (s : Schema) (str : String) (f : Nat) :
      feltEncodeStr str = .ok f →
      Agrees s (.str str) (.Primitive "felt252") (.feltD f)
  | abool (s : Schema) (b : Bool) :
      Agrees s (.bool b) (.Primitive "bool") (.boolD b)
  | abytes (s : Schema) (str : String) :
      Agrees s (.str str) (.Primitive "ByteArray")
        (.bytesD ((chunkBytes (bytesOfString str)).map packBE)
          (packBE (restBytes (bytesOfString str)))
          ((restBytes (bytesOfString str)).length))
  | aarr (s : Schema) (xs : List Json) (t : SchemaType) (ds : List DecVal) :
      AgreesList s xs t ds → Agrees s (.arr xs) (.Array t) (.arrD ds)
  | aspan (s : Schema) (xs : List Json) (t : SchemaType) (ds : List DecVal) :
      AgreesList s xs t ds → Agrees s (.arr xs) (.Span t) (.arrD ds)
  | aobj (s : Schema) (v : Json) (name : String) (d : SchemaDef)
      (fs : List (String × DecVal)) :
      lookupSchema s name = some d → AgreesFields s v d.fields fs →
      Agrees s v (.Struct name) (.objD fs)

/-- Element-wise agreement for arrays. -/
inductive AgreesList : Schema → List Json → SchemaType → List DecVal → Prop where
  | nil (s : Schema) (t : SchemaType) : AgreesList s [] t []
  | cons (s : Schema) (x : Json) (xs : List Json) (t : SchemaType) (d : DecVal)
      (ds : List DecVal) :
      Agrees s x t d → AgreesList s xs t ds → AgreesList s (x :: xs) t (d :: ds)

/-- Field-wise agreement for records, in declaration order. -/
inductive AgreesFields : Schema → Json → List NamedSchemaType →
    List (String × DecVal) → Prop where
  | nil (s : Schema) (v : Json) : AgreesFields s v [] []
  | cons (s : Schema) (v : Json) (f : NamedSchemaType) (fs : List NamedSchemaType)
      (w : Json) (d : DecVal) (ds : List (String × DecVal)) :
      jsonGet v f.name = some w → Agrees s w f.ty d → AgreesFields s v fs ds →
      AgreesFields s v (f :: fs) ((f.name, d) :: ds)

end

/-! ## A self-contained model of `serialize_output_inner` (cairo_output.rs)

The decoder walks a compiler type description while consuming a stream of
`MaybeRelocatable` return values, dereferencing pointers through the VM's
memory. We embed the sub-universe of Sierra types exercised by the enum- and
dictionary-claims: field elements, unsigned and signed machine integers,
enums (with their user-type debug name, used for the panic-result and
`core::bool` conventions), generic structs (structs whose user-type name is
none of the `Span`/`F64`/`ByteArray` special conventions — the generic path
never consults that name), and both dictionary forms. The compiler-produced
`type_sizes` table is modelled by the Sierra size function `tySize`, and VM
memory by a list of segments. Fatal panics/`expect`s are modelled as
`Except.error` with the panic's message. -/

/-- `cairo_vm::types::relocatable::MaybeRelocatable`. -/
inductive MRel where
  | int (f : Nat)
  | rel (seg : Nat) (off : Nat)
  deriving DecidableEq

/-- VM memory: a list of fully-written segments. -/
structure Vm where
  segments : List (List MRel)

/-- `vm.get_segment_size(seg).unwrap_or_default()`. -/
def segSize (vm : Vm) (seg : Nat) : Nat := (vm.segments.getD seg []).length

/-- `vm.get_continuous_range((seg, off), size)`: the `size` cells starting at
`off`, if they all exist. -/
def contRange (vm : Vm) (seg off size : Nat) : Option (List MRel) :=
  let sd := vm.segments.getD seg []
  if off + size ≤ sd.length then some ((sd.drop off).take size) else none

/-- The embedded sub-universe of Sierra concrete types. -/
inductive STy where
  | felt252T
  | uintT
  | sintT
  | enumT (name : String) (variants : List STy)
  | structT (members : List STy)
  | dictT (value : STy)
  | squashedDictT (value : STy)

mutual

/-- The Sierra flat size of a type (the `type_sizes` table entry): scalars
occupy one slot, an enum one tag slot plus space for its largest variant, a
struct the sum of its members, a dictionary one pointer, a squashed
dictionary a start/end pointer pair. -/
def tySize : STy → Nat
  | .felt252T => 1
  | .uintT => 1
  | .sintT => 1
  | .enumT _ variants => 1 + maxSizeList variants
  | .structT members => sumSizeList members
  | .dictT _ => 1
  | .squashedDictT _ => 2

/-- The `max_variant_size` fold of the enum arm: maximum size over a list of
variants, starting from 0. -/
def maxSizeList : List STy → Nat
  | [] => 0
  | v :: vs => max (tySize v) (maxSizeList vs)

/-- Sum of member sizes. -/
def sumSizeList : List STy → Nat
  | [] => 0
  | m :: ms => tySize m + sumSizeList ms

end

/-- The casm-tag → declared-variant-index conversion of the enum arm:
`num_variants - 1 - (tag >> 1)` when there are more than two variants
(`none` models the panic when the subtraction underflows), the raw tag
otherwise. -/
def enumVariantIdx (numVariants tag : Nat) : Option Nat :=
  if 2 < numVariants then
    if tag >>> 1 ≤ numVariants - 1 then some (numVariants - 1 - (tag >>> 1))
    else none
  else some tag

/-- The enum padding loop: consume exactly `n` cells, asserting each equals
`MaybeRelocatable::from(0)`; any other cell (or a missing one) is the fatal
`"Malformed enum"` assertion. -/
def consumePadding : Nat → List MRel → Except String (List MRel)
  | 0, st => .ok st
  | n + 1, st =>
    match st with
    | x :: rest =>
      if x = MRel.int 0 then consumePadding n rest else .error "Malformed enum"
    | [] => .error "Malformed enum"

/-- Minimal hex digits of a number, most significant first. -/
def natHexDigits (n : Nat) : List Char :=
  if n = 0 then [] else natHexDigits (n / 16) ++ [hexChar (n % 16)]
termination_by n
decreasing_by omega

/-- `Felt252::to_hex_string`: `0x`-prefixed lower-case hex. -/
def feltHex (f : Nat) : String :=
  if f = 0 then "0x0" else "0x" ++ String.mk (natHexDigits f)

/-- `serde_json::Number::from` on a signed integer: non-negative values are
stored unsigned. -/
def jnumOfInt (i : Int) : JsonNum :=
  if i < 0 then .intN i else .uintN i.toNat

/-- `MaybeRelocatable`'s `Display`, used for dictionary keys: integers print
in decimal, relocatables as `segment:offset`. -/
def mrelKeyStr : MRel → String
  | .int f => Nat.repr f
  | .rel s o => Nat.repr s ++ ":" ++ Nat.repr o

/-- `Itertools::tuples::<(_, _, _)>`: chunk into triplets, dropping any
remainder. -/
def triples : List MRel → List (MRel × MRel × MRel)
  | a :: b :: c :: rest => (a, b, c) :: triples rest
  | _ => []

mutual

/-- The embedded `serialize_output_inner`: dispatch on the Sierra type,
consuming return values from `st` (and VM memory for dictionaries),
producing the JSON output. `schema`/`curName` thread the schema-resolution
context used by the generic-struct arm exactly as in the source. -/
def serOutInner (ty : STy) (schema : Schema) (curName : String) (vm : Vm)
    (st : List MRel) : Except String (Json × List MRel) :=
  match ty with
  | .felt252T =>
    match st with
    | .int f :: rest => .ok (.str (feltHex f), rest)
    | .rel _ _ :: _ => .error "Value is not an integer"
    | [] => .error "Missing return value"
  | .uintT =>
    match st with
    | .int f :: rest =>
      if f < 2 ^ 128 then .ok (.num (.uintN f), rest)
      else .error "Invalid u128"
    | .rel _ _ :: _ => .error "Value is not an integer"
    | [] => .error "Missing return value"
  | .sintT =>
    match st with
    | .int f :: rest =>
      if -(2 ^ 127) ≤ signedFelt f ∧ signedFelt f ≤ 2 ^ 127 - 1 then
        .ok (.num (jnumOfInt (signedFelt f)), rest)
      else .error "Invalid i128"
    | .rel _ _ :: _ => .error "Value is not an integer"
    | [] => .error "Missing return value"
  | .enumT name variants =>
    if strStarts name "core::panics::PanicResult" then
      match variants with
      | v0 :: _ => serOutInner v0 schema curName vm st
      | [] => .error "index out of bounds"
    else
      match st with
      | .int tag :: rest =>
        if tag < 2 ^ 64 then
          match enumVariantIdx variants.length tag with
          | some idx =>
            if hlt : idx < variants.length then
              if name = "core::bool" then
                match variants with
                | [v0, v1] =>
                  if idx < 2 ∧ tySize v0 = 0 ∧ tySize v1 = 0 then
                    .ok (.bool (idx != 0), rest)
                  else .error "Malformed bool enum"
                | _ => .error "Malformed bool enum"
              else
                match consumePadding
                    (maxSizeList variants - tySize (variants.get ⟨idx, hlt⟩)) rest with
                | .ok st2 => serOutInner (variants.get ⟨idx, hlt⟩) schema curName vm st2
                | .error e => .error e
            else .error "index out of bounds"
          | none => .error "index out of bounds"
        else .error "Invalid enum tag"
      | .rel _ _ :: _ => .error "Enum tag is not integer"
      | [] => .error "Missing return value"
  | .structT members =>
    match lookupSchema schema curName with
    | some d =>
      match serOutMembers members d.fields schema curName vm st with
      | .ok (fs, rest) => .ok (.obj fs, rest)
      | .error e => .error e
    | none => .error ("Schema " ++ curName ++ " not found")
  | .dictT valueTy =>
    match st with
    | .rel seg off :: rest =>
      if off = segSize vm seg ∧ off % 3 = 0 then
        match contRange vm seg 0 off with
        | some mem =>
          match serOutDictEntries valueTy (triples mem) schema curName vm with
          | .ok entries => .ok (.obj entries, rest)
          | .error e => .error e
        | none => .error "Malformed dictionary memory"
      else .error "Return value is not a valid Felt252Dict"
    | .int _ :: _ => .error "Dict Ptr not Relocatable"
    | [] => .error "Missing return val"
  | .squashedDictT valueTy =>
    match st with
    | .rel seg1 a :: .rel seg2 b :: rest =>
      if seg1 = seg2 ∧ a ≤ b then
        if (b - a) % 3 = 0 then
          match contRange vm seg1 a (b - a) with
          | some mem =>
            match serOutDictEntries valueTy (triples mem) schema curName vm with
            | .ok entries => .ok (.obj entries, rest)
            | .error e => .error e
          | none => .error "Malformed dictionary memory"
        else .error "Return value is not a valid SquashedFelt252Dict"
      else .error "Squashed dict pointer arithmetic failed"
    | .rel _ _ :: .int _ :: _ => .error "Squashed dict_end ptr not Relocatable"
    | .int _ :: _ => .error "Squashed dict_start ptr not Relocatable"
    | _ => .error "Missing return val"
termination_by (sizeOf ty, 0)
decreasing_by
  all_goals simp_wf
  all_goals first
    | exact Prod.Lex.left _ _ (by omega)
    | exact Prod.Lex.left _ _ (by
        have h1 := List.sizeOf_lt_of_mem (List.getElem_mem hlt)
        omega)

/-- The generic-struct member loop: pair the Nth compiler member with the Nth
schema field (members beyond the schema's field list are silently skipped,
as in the source), updating the schema-resolution context when the field's
declared type is itself a named struct reference. -/
def serOutMembers (members : List STy) (fields : List NamedSchemaType)
    (schema : Schema) (curName : String) (vm : Vm) (st : List MRel) :
    Except String (List (String × Json) × List MRel) :=
  match members, fields with
  | [], _ => .ok ([], st)
  | _ :: ms, [] => serOutMembers ms [] schema curName vm st
  | m :: ms, f :: fs =>
    match serOutInner m schema
        (match f.ty with | .Struct n => n | _ => curName) vm st with
    | .ok (jv, st2) =>
      match serOutMembers ms fs schema curName vm st2 with
      | .ok (rest, st3) => .ok ((f.name, jv) :: rest, st3)
      | .error e => .error e
    | .error e => .error e
termination_by (sizeOf members, 0)
decreasing_by
  all_goals simp_wf
  all_goals exact Prod.Lex.left _ _ (by omega)

/-- The dictionary entry loop: each `(key, _, value)` triplet decodes its
value from a singleton stream and is keyed by the key's display string. -/
def serOutDictEntries (valueTy : STy) (ts : List (MRel × MRel × MRel))
    (schema : Schema) (curName : String) (vm : Vm) :
    Except String (List (String × Json)) :=
  match ts with
  | [] => .ok []
  | (k, _, v) :: rest =>
    match serOutInner valueTy schema curName vm [v] with
    | .ok (jv, _) =>
      match serOutDictEntries valueTy rest schema curName vm with
      | .ok entries => .ok ((mrelKeyStr k, jv) :: entries)
      | .error e => .error e
    | .error e => .error e
termination_by (sizeOf valueTy, ts.length + 1)
decreasing_by
  all_goals simp_wf
  all_goals first
    | exact Prod.Lex.right _ (by omega)
    | exact Prod.Lex.right _ (by simp only [List.length_cons]; omega)

end

/-! ## Encoder structure lemmas and claims about the encoder's shape -/

/-- `parse_elems` is the in-order concatenation of the element encodings. -/
theorem parse_elems_eq_mapM (xs : List Json) (t : SchemaType) (s : Schema) :
    parse_elems xs t s =
      (xs.mapM (fun x => parse_value x t s)).map List.flatten := by
  induction xs with
  | nil =>
    rw [parse_elems, List.mapM_nil]
    simp [Except.map, pure, Except.pure]
  | cons x xs ih =>
    rw [parse_elems, List.mapM_cons]
    cases hx : parse_value x t s with
    | error e => simp [hx, Except.map, Except.bind, bind]
    | ok p =>
      rw [ih]
      cases hm : xs.mapM (fun x => parse_value x t s) with
      | error e => simp [hx, hm, Except.map, Except.bind, bind, pure, Except.pure]
      | ok ps => simp [hx, hm, Except.map, Except.bind, bind, pure, Except.pure]

/-- C7: a JSON array encoded against `Array` emits the element count first and
then the element encodings flattened in order; `Span` encodes identically to
`Array`; in particular `[1,2,3]` as an array of `i32` encodes to `[3,1,2,3]`. -/
theorem array_span_encoding :
    (∀ (xs : List Json) (t : SchemaType) (s : Schema),
      parse_value (.arr xs) (.Array t) s =
        (xs.mapM (fun x => parse_value x t s)).map
          (fun parts => feltOfNat xs.length :: parts.flatten) ∧
      parse_value (.arr xs) (.Array t) s = parse_value (.arr xs) (.Span t) s) ∧
    parse_value (.arr [.num (.uintN 1), .num (.uintN 2), .num (.uintN 3)])
        (.Array (.Primitive "i32")) ⟨[], "", ""⟩ = .ok [3, 1, 2, 3] := by
  have harr : ∀ (xs : List Json) (t : SchemaType) (s : Schema),
      parse_value (.arr xs) (.Array t) s =
        (xs.mapM (fun x => parse_value x t s)).map
          (fun parts => feltOfNat xs.length :: parts.flatten) := by
    intro xs t s
    rw [parse_value]
    simp only [Json.asArr]
    rw [parse_elems_eq_mapM]
    cases hm : xs.mapM (fun x => parse_value x t s) with
    | error e => simp [hm, Except.map]
    | ok ps => simp [hm, Except.map]
  refine ⟨fun xs t s => ⟨harr xs t s, ?_⟩, ?_⟩
  · rw [harr xs t s, parse_value]
    simp only [Json.asArr]
    rw [parse_elems_eq_mapM]
    cases hm : xs.mapM (fun x => parse_value x t s) with
    | error e => simp [hm, Except.map]
    | ok ps => simp [hm, Except.map]
  · rw [harr]
    rw [List.mapM_cons, List.mapM_cons, List.mapM_cons, List.mapM_nil]
    rw [parse_value, parse_value, parse_value]
    simp only [Json.asI64]
    norm_num [Except.map, Except.bind, bind, pure, Except.pure, feltOfNat, feltOfInt, feltPrime]
    omega

/-- C8: `process_json_args` applied to the empty JSON object succeeds with an
empty argument list, for every schema (also when the input root name resolves
to no record). -/
theorem empty_object_empty_args (schema : Schema) :
    processJsonArgs (Json.obj []) schema = .ok ⟨[]⟩ := by
  simp [processJsonArgs, isEmptyObj]

/-- Auxiliary: only the empty JSON object passes the early-exit test. -/
theorem isEmptyObj_false_of_ne {j : Json} (h : j ≠ Json.obj []) :
    isEmptyObj j = false := by
  cases j with
  | obj fields =>
    cases fields with
    | nil => exact absurd rfl h
    | cons a l => simp [isEmptyObj]
  | null => simp [isEmptyObj]
  | bool b => simp [isEmptyObj]
  | num n => simp [isEmptyObj]
  | str s => simp [isEmptyObj]
  | arr xs => simp [isEmptyObj]

/-- C10: whenever `process_json_args` succeeds on a document other than the
empty object, the result is exactly one argument, a whole `FuncArg::Array`
holding the entire flat sequence; `FuncArg::Single` is never produced. -/
theorem success_single_whole_array (json : Json) (schema : Schema) (r : FuncArgs)
    (hne : json ≠ Json.obj [])
    (h : processJsonArgs json schema = .ok r) :
    ∃ fs, parse_schema json schema.cairo_input schema = .ok fs ∧
      r = ⟨[FuncArg.Array fs]⟩ := by
  unfold processJsonArgs at h
  rw [isEmptyObj_false_of_ne hne] at h
  simp only [Bool.false_eq_true, if_false] at h
  cases hp : parse_schema json schema.cairo_input schema with
  | error e => rw [hp] at h; simp [Except.map] at h
  | ok fs =>
    rw [hp] at h
    simp only [Except.map, Except.ok.injEq] at h
    exact ⟨fs, rfl, h.symm⟩

/-- Witness for C10: a concrete one-field document. -/
theorem success_single_whole_array_witness :
    Json.obj [("x", Json.num (.uintN 7))] ≠ Json.obj [] ∧
    ∃ fs, parse_schema (Json.obj [("x", Json.num (.uintN 7))])
        (Schema.cairo_input ⟨[("Input", ⟨[⟨"x", .Primitive "u32"⟩]⟩)], "Input", ""⟩)
        ⟨[("Input", ⟨[⟨"x", .Primitive "u32"⟩]⟩)], "Input", ""⟩ = .ok fs ∧
      FuncArgs.mk [FuncArg.Array [7]] = ⟨[FuncArg.Array fs]⟩ := by
  constructor
  · simp
  · exact success_single_whole_array _ _ _ (by simp)
      (by simp [processJsonArgs, isEmptyObj, parse_schema, parse_fields, parse_value,
            lookupSchema, jsonGet, lookupField, Json.asU64, Except.map, Except.bind, bind, pure]
          norm_num [feltOfNat, feltPrime])

/-- Equation lemma: a missing field aborts the field loop. -/
theorem parse_fields_cons_none {v : Json} {f : NamedSchemaType}
    {rest : List NamedSchemaType} {name : String} {s : Schema}
    (hg : jsonGet v f.name = none) :
    parse_fields v (f :: rest) name s = .error (.missingField f.name name) := by
  rw [parse_fields]
  split
  · rfl
  · rename_i w hw
    rw [hg] at hw
    exact absurd hw (by simp)

/-- Equation lemma: a present field is encoded and concatenated before the
remaining fields. -/
theorem parse_fields_cons_some {v : Json} {f : NamedSchemaType}
    {rest : List NamedSchemaType} {name : String} {s : Schema} {w : Json}
    (hg : jsonGet v f.name = some w) :
    parse_fields v (f :: rest) name s = (do
      let parsed ← parse_value w f.ty s
      let more ← parse_fields v rest name s
      .ok (parsed ++ more)) := by
  rw [parse_fields]
  split
  · rename_i hw
    rw [hg] at hw
    exact absurd hw (by simp)
  · rename_i w2 hw
    rw [hg] at hw
    cases hw
    rfl

/-- Equation lemma: resolving the record succeeds. -/
theorem parse_schema_some {v : Json} {name : String} {s : Schema} {d : SchemaDef}
    (hl : lookupSchema s name = some d) :
    parse_schema v name s = parse_fields v d.fields name s := by
  rw [parse_schema]
  split
  · rename_i hw
    rw [hl] at hw
    exact absurd hw (by simp)
  · rename_i d2 hw
    rw [hl] at hw
    cases hw
    rfl

/-- Equation lemma: an unresolved record name. -/
theorem parse_schema_none {v : Json} {name : String} {s : Schema}
    (hl : lookupSchema s name = none) :
    parse_schema v name s = .error (.schemaNotFound name) := by
  rw [parse_schema]
  split
  · rfl
  · rename_i d2 hw
    rw [hl] at hw
    exact absurd hw (by simp)

/-- `parse_fields` is the in-declaration-order traversal of the record's
fields. -/
theorem parse_fields_eq_mapM (v : Json) (fields : List NamedSchemaType)
    (name : String) (s : Schema) :
    parse_fields v fields name s =
      (fields.mapM (fun (f : NamedSchemaType) =>
        match jsonGet v f.name with
        | none => Except.error (ParseErr.missingField f.name name)
        | some w => parse_value w f.ty s)).map List.flatten := by
  induction fields with
  | nil =>
    rw [parse_fields, List.mapM_nil]
    simp [Except.map, pure, Except.pure]
  | cons f rest ih =>
    rw [List.mapM_cons]
    cases hg : jsonGet v f.name with
    | none =>
      rw [parse_fields_cons_none hg]
      simp [Except.map, Except.bind, bind]
    | some w =>
      rw [parse_fields_cons_some hg, ih]
      cases hx : parse_value w f.ty s with
      | error e => simp [hx, Except.map, Except.bind, bind]
      | ok p =>
        cases hm : rest.mapM (fun (f : NamedSchemaType) =>
            match jsonGet v f.name with
            | none => Except.error (ParseErr.missingField f.name name)
            | some w => parse_value w f.ty s) with
        | error e => simp [hx, hm, Except.map, Except.bind, bind]
        | ok ps => simp [hx, hm, Except.map, Except.bind, bind, pure, Except.pure]

/-- The first field in declaration order whose key is absent aborts the loop
with its `MissingField` error. -/
theorem parse_fields_first_missing (v : Json) (name : String) (s : Schema)
    (f : NamedSchemaType) (post : List NamedSchemaType) (pre : List NamedSchemaType)
    (hpre : ∀ g ∈ pre, ∃ w r, jsonGet v g.name = some w ∧ parse_value w g.ty s = .ok r)
    (hf : jsonGet v f.name = none) :
    parse_fields v (pre ++ f :: post) name s = .error (.missingField f.name name) := by
  induction pre with
  | nil =>
    rw [List.nil_append]
    exact parse_fields_cons_none hf
  | cons g pre ih =>
    obtain ⟨w, r, hw, hr⟩ := hpre g (by simp)
    rw [List.cons_append, parse_fields_cons_some hw, hr,
      ih (fun g hg => hpre g (by simp [hg]))]
    simp [Except.bind, bind]

/-- C9: the encoder processes record fields in declaration order (the encoding
is the in-order traversal of the declared field list), and when the JSON
object lacks a key for a declared field the encode fails with a
`MissingField` error naming both the missing field and the enclosing
record. -/
theorem record_order_and_missing_field :
    (∀ (v : Json) (name : String) (s : Schema) (d : SchemaDef),
      lookupSchema s name = some d →
      parse_schema v name s =
        (d.fields.mapM (fun (f : NamedSchemaType) =>
          match jsonGet v f.name with
          | none => Except.error (ParseErr.missingField f.name name)
          | some w => parse_value w f.ty s)).map List.flatten) ∧
    (∀ (v : Json) (name : String) (s : Schema) (d : SchemaDef)
        (pre : List NamedSchemaType) (f : NamedSchemaType)
        (post : List NamedSchemaType),
      lookupSchema s name = some d →
      d.fields = pre ++ f :: post →
      (∀ g ∈ pre, ∃ w r, jsonGet v g.name = some w ∧ parse_value w g.ty s = .ok r) →
      jsonGet v f.name = none →
      parse_schema v name s = .error (.missingField f.name name)) := by
  constructor
  · intro v name s d hl
    rw [parse_schema_some hl, parse_fields_eq_mapM]
  · intro v name s d pre f post hl hfields hpre hf
    rw [parse_schema_some hl, hfields]
    exact parse_fields_first_missing v name s f post pre hpre hf

/-- Witness for C9: a two-field record whose second field is absent. -/
theorem record_order_and_missing_field_witness :
    lookupSchema ⟨[("Input", ⟨[⟨"request", .Primitive "u32"⟩, ⟨"optional", .Primitive "u32"⟩]⟩)], "Input", ""⟩ "Input" =
      some ⟨[⟨"request", .Primitive "u32"⟩, ⟨"optional", .Primitive "u32"⟩]⟩ ∧
    parse_schema (Json.obj [("request", Json.num (.uintN 42))]) "Input"
      ⟨[("Input", ⟨[⟨"request", .Primitive "u32"⟩, ⟨"optional", .Primitive "u32"⟩]⟩)], "Input", ""⟩ =
      .error (.missingField "optional" "Input") := by
  constructor
  · simp [lookupSchema]
  · exact record_order_and_missing_field.2 _ "Input" _
      ⟨[⟨"request", .Primitive "u32"⟩, ⟨"optional", .Primitive "u32"⟩]⟩
      [⟨"request", .Primitive "u32"⟩] ⟨"optional", .Primitive "u32"⟩ []
      (by simp [lookupSchema]) rfl
      (by
        intro g hg
        simp at hg
        subst hg
        refine ⟨Json.num (.uintN 42), [feltOfNat 42], by simp [jsonGet, lookupField], ?_⟩
        rw [parse_value]
        simp [Json.asU64])
      (by simp [jsonGet, lookupField])

/-! ## Claims about the decoder model -/

/-- Unfolding of the enum arm for a non-panic, non-bool enum whose tag
resolves to an in-bounds variant: consume the tag, strip the padding, decode
the selected variant. -/
theorem serOut_enum_eq (name : String) (variants : List STy) (schema : Schema)
    (curName : String) (vm : Vm) (tag : Nat) (rest : List MRel) (idx : Nat)
    (hpanic : strStarts name "core::panics::PanicResult" = false)
    (hbool : ¬ name = "core::bool")
    (htag : tag < 2 ^ 64)
    (hvi : enumVariantIdx variants.length tag = some idx)
    (hlt : idx < variants.length) :
    serOutInner (.enumT name variants) schema curName vm (.int tag :: rest) =
      match consumePadding (maxSizeList variants - tySize (variants.get ⟨idx, hlt⟩)) rest with
      | .ok st2 => serOutInner (variants.get ⟨idx, hlt⟩) schema curName vm st2
      | .error e => .error e := by
  rw [serOutInner.eq_def]
  simp only [hpanic, Bool.false_eq_true, if_false, htag, if_pos, hvi]
  rw [dif_pos hlt, if_neg hbool]

/-- C3: for every non-panic, non-boolean enum the decoder computes the
declared variant index from the consumed tag `t` as
`num_variants - 1 - (t >> 1)` when the enum has more than two variants, and
as `t` itself otherwise, then decodes that variant (after its padding). -/
theorem enum_tag_to_variant_index (name : String) (variants : List STy)
    (schema : Schema) (curName : String) (vm : Vm) (tag : Nat) (rest : List MRel)
    (idx : Nat)
    (hpanic : strStarts name "core::panics::PanicResult" = false)
    (hbool : ¬ name = "core::bool")
    (htag : tag < 2 ^ 64)
    (hidx : idx = if 2 < variants.length then variants.length - 1 - (tag >>> 1) else tag)
    (hshift : 2 < variants.length → tag >>> 1 ≤ variants.length - 1)
    (hlt : idx < variants.length) :
    serOutInner (.enumT name variants) schema curName vm (.int tag :: rest) =
      match consumePadding (maxSizeList variants - tySize (variants.get ⟨idx, hlt⟩)) rest with
      | .ok st2 => serOutInner (variants.get ⟨idx, hlt⟩) schema curName vm st2
      | .error e => .error e := by
  have hvi : enumVariantIdx variants.length tag = some idx := by
    unfold enumVariantIdx
    by_cases h2 : 2 < variants.length
    · rw [if_pos h2, if_pos (hshift h2), hidx, if_pos h2]
    · rw [if_neg h2, hidx, if_neg h2]
  exact serOut_enum_eq name variants schema curName vm tag rest idx hpanic hbool htag hvi hlt

/-- Witness for C3: a four-variant enum with tag 2 selects declared variant
`4 - 1 - (2 >> 1) = 2` and decodes its (felt) payload. -/
theorem enum_tag_to_variant_index_witness :
    strStarts "test::MyEnum" "core::panics::PanicResult" = false ∧
    serOutInner (.enumT "test::MyEnum" [.felt252T, .felt252T, .felt252T, .felt252T])
        ⟨[], "", ""⟩ "Out" ⟨[]⟩ [.int 2, .int 99] =
      match consumePadding
          (maxSizeList [.felt252T, .felt252T, .felt252T, .felt252T] -
            tySize (([.felt252T, .felt252T, .felt252T, .felt252T] : List STy).get ⟨2, by decide⟩))
          [.int 99] with
      | .ok st2 => serOutInner (([.felt252T, .felt252T, .felt252T, .felt252T] : List STy).get ⟨2, by decide⟩)
          ⟨[], "", ""⟩ "Out" ⟨[]⟩ st2
      | .error e => .error e := by
  refine ⟨by decide, ?_⟩
  exact enum_tag_to_variant_index "test::MyEnum" _ _ _ _ 2 _ 2
    (by decide) (by decide) (by decide) (by decide) (by decide) (by decide)

/-- All-zero padding of the right length is consumed cleanly, leaving exactly
the payload stream. -/
theorem consumePadding_zeros (pad rest : List MRel)
    (hz : ∀ x ∈ pad, x = MRel.int 0) :
    consumePadding pad.length (pad ++ rest) = .ok rest := by
  induction pad with
  | nil => rfl
  | cons a pad ih =>
    have ha := hz a (by simp)
    subst ha
    rw [List.length_cons, List.cons_append, consumePadding, if_pos rfl]
    exact ih (fun x hx => hz x (by simp [hx]))

/-- Padding containing any non-zero cell raises the fatal
`"Malformed enum"` assertion. -/
theorem consumePadding_nonzero (pad rest : List MRel)
    (hnz : ∃ x ∈ pad, x ≠ MRel.int 0) :
    consumePadding pad.length (pad ++ rest) = .error "Malformed enum" := by
  induction pad with
  | nil => simp at hnz
  | cons a pad ih =>
    rw [List.length_cons, List.cons_append]
    by_cases ha : a = MRel.int 0
    · subst ha
      rw [consumePadding, if_pos rfl]
      obtain ⟨x, hx, hxne⟩ := hnz
      rcases List.mem_cons.mp hx with h | h
      · exact absurd h hxne
      · exact ih ⟨x, h, hxne⟩
    · rw [consumePadding, if_neg ha]

/-- C4: decoding a non-boolean enum variant consumes exactly
`max_variant_size - selected_variant_size` padding cells before the payload;
all-zero padding decodes cleanly into the selected variant's payload, and any
non-zero padding cell raises the fatal `"Malformed enum"` assertion. -/
theorem enum_padding_behavior (name : String) (variants : List STy)
    (schema : Schema) (curName : String) (vm : Vm) (tag : Nat)
    (pad rest : List MRel) (idx : Nat)
    (hpanic : strStarts name "core::panics::PanicResult" = false)
    (hbool : ¬ name = "core::bool")
    (htag : tag < 2 ^ 64)
    (hvi : enumVariantIdx variants.length tag = some idx)
    (hlt : idx < variants.length)
    (hlen : pad.length = maxSizeList variants - tySize (variants.get ⟨idx, hlt⟩)) :
    ((∀ x ∈ pad, x = MRel.int 0) →
      serOutInner (.enumT name variants) schema curName vm (.int tag :: (pad ++ rest)) =
        serOutInner (variants.get ⟨idx, hlt⟩) schema curName vm rest) ∧
    ((∃ x ∈ pad, x ≠ MRel.int 0) →
      serOutInner (.enumT name variants) schema curName vm (.int tag :: (pad ++ rest)) =
        .error "Malformed enum") := by
  constructor
  · intro hz
    rw [serOut_enum_eq name variants schema curName vm tag (pad ++ rest) idx
      hpanic hbool htag hvi hlt]
    rw [← hlen, consumePadding_zeros pad rest hz]
  · intro hnz
    rw [serOut_enum_eq name variants schema curName vm tag (pad ++ rest) idx
      hpanic hbool htag hvi hlt]
    rw [← hlen, consumePadding_nonzero pad rest hnz]

/-- Witness for C4: a two-variant enum (unit-struct vs felt) selecting the
empty variant, whose single padding cell is checked: zero decodes cleanly,
non-zero hits the assertion. -/
theorem enum_padding_behavior_witness :
    ((∀ x ∈ [MRel.int 0], x = MRel.int 0) →
      serOutInner (.enumT "test::E2" [.structT [], .felt252T])
          ⟨[("Out", ⟨[]⟩)], "", "Out"⟩ "Out" ⟨[]⟩ (.int 0 :: ([MRel.int 0] ++ [])) =
        serOutInner (([.structT [], .felt252T] : List STy).get ⟨0, by decide⟩)
          ⟨[("Out", ⟨[]⟩)], "", "Out"⟩ "Out" ⟨[]⟩ []) ∧
    ((∃ x ∈ [MRel.int 7], x ≠ MRel.int 0) →
      serOutInner (.enumT "test::E2" [.structT [], .felt252T])
          ⟨[("Out", ⟨[]⟩)], "", "Out"⟩ "Out" ⟨[]⟩ (.int 0 :: ([MRel.int 7] ++ [])) =
        .error "Malformed enum") := by
  constructor
  · exact (enum_padding_behavior "test::E2" [.structT [], .felt252T] _ "Out" _ 0
      [MRel.int 0] [] 0 (by decide) (by decide) (by decide) (by decide) (by decide)
      (by decide)).1
  · exact (enum_padding_behavior "test::E2" [.structT [], .felt252T] _ "Out" _ 0
      [MRel.int 7] [] 0 (by decide) (by decide) (by decide) (by decide) (by decide)
      (by decide)).2

/-- C5: the dictionary arms' structural soundness checks — a live
`Felt252Dict` pointer whose offset is not the current segment size or not a
multiple of 3 is the fatal `"not a valid Felt252Dict"` condition; a squashed
dictionary whose backing range size is not a multiple of 3 is the fatal
`"not a valid SquashedFelt252Dict"` condition. -/
theorem dict_validity_checks :
    (∀ (v : STy) (schema : Schema) (curName : String) (vm : Vm) (seg off : Nat)
        (rest : List MRel),
      ¬(off = segSize vm seg ∧ off % 3 = 0) →
      serOutInner (.dictT v) schema curName vm (.rel seg off :: rest) =
        .error "Return value is not a valid Felt252Dict") ∧
    (∀ (v : STy) (schema : Schema) (curName : String) (vm : Vm) (seg a b : Nat)
        (rest : List MRel),
      a ≤ b → (b - a) % 3 ≠ 0 →
      serOutInner (.squashedDictT v) schema curName vm
          (.rel seg a :: .rel seg b :: rest) =
        .error "Return value is not a valid SquashedFelt252Dict") := by
  constructor
  · intro v schema curName vm seg off rest h
    rw [serOutInner.eq_def]
    simp only [if_neg h]
  · intro v schema curName vm seg a b rest hab h3
    rw [serOutInner.eq_def]
    simp only [if_neg h3]
    simp [hab]

/-- Witness for C5: a one-cell segment gives a live-dict pointer with
offset 1 (equal to the segment size but not a multiple of 3), and a squashed
range of size 2. -/
theorem dict_validity_checks_witness :
    (¬((1 : Nat) = segSize ⟨[[MRel.int 5]]⟩ 0 ∧ (1 : Nat) % 3 = 0) ∧
      serOutInner (.dictT .felt252T) ⟨[], "", ""⟩ "Out" ⟨[[MRel.int 5]]⟩
          [.rel 0 1] = .error "Return value is not a valid Felt252Dict") ∧
    ((0 : Nat) ≤ 2 ∧ ((2 : Nat) - 0) % 3 ≠ 0 ∧
      serOutInner (.squashedDictT .felt252T) ⟨[], "", ""⟩ "Out" ⟨[[MRel.int 5]]⟩
          [.rel 0 0, .rel 0 2] = .error "Return value is not a valid SquashedFelt252Dict") := by
  constructor
  · exact ⟨by decide, dict_validity_checks.1 .felt252T _ "Out" _ 0 1 [] (by decide)⟩
  · exact ⟨by decide, by decide,
      dict_validity_checks.2 .felt252T _ "Out" _ 0 0 2 [] (by decide) (by decide)⟩

/-! ## Field-element arithmetic lemmas -/

theorem feltPrime_eq :
    feltPrime = 3618502788666131213697322783095070105623107215331596699973092056135872020481 := by
  norm_num [feltPrime]

theorem feltOfNat_small {n : Nat} (h : n < feltPrime) : feltOfNat n = n :=
  Nat.mod_eq_of_lt h

theorem feltOfNat_lt (n : Nat) : feltOfNat n < feltPrime :=
  Nat.mod_lt _ (by norm_num [feltPrime])

theorem feltOfInt_ofNat (n : Nat) : feltOfInt (n : Int) = feltOfNat n := by
  unfold feltOfInt feltOfNat
  rw [← Int.ofNat_emod]
  exact Int.toNat_ofNat _

theorem feltOfInt_neg {i : Int} (h1 : -(feltPrime : Int) ≤ i) (h2 : i < 0) :
    (feltOfInt i : Int) = i + feltPrime := by
  unfold feltOfInt
  have hPpos : (0 : Int) < (feltPrime : Int) := by
    have := feltPrime_eq
    omega
  have h3 : i % (feltPrime : Int) = (i + feltPrime) % feltPrime := by
    conv_lhs => rw [show i = (i + feltPrime) + (feltPrime : Int) * (-1) by ring]
    rw [Int.add_mul_emod_self_left]
  rw [h3, Int.emod_eq_of_lt (by omega) (by omega)]
  omega

/-- Round-trip of `Felt252::from::<i64>` with `signed_felt` on the `i64`
range. -/
theorem signedFelt_feltOfInt {i : Int} (h1 : -(2 ^ 63) ≤ i) (h2 : i < 2 ^ 63) :
    signedFelt (feltOfInt i) = i := by
  have hP := feltPrime_eq
  have h63 : (2 : Int) ^ 63 = 9223372036854775808 := by norm_num
  rw [h63] at h1 h2
  unfold signedFelt
  by_cases hi : 0 ≤ i
  · obtain ⟨n, rfl⟩ := Int.eq_ofNat_of_zero_le hi
    rw [feltOfInt_ofNat, feltOfNat_small (by omega)]
    rw [if_pos (by omega)]
  · have hneg := feltOfInt_neg (i := i) (by omega) (by omega)
    rw [if_neg (by omega)]
    omega

/-- `feltOfInt (-1)` is the largest field element. -/
theorem feltOfInt_neg_one : feltOfInt (-1) = feltPrime - 1 := by
  have hP := feltPrime_eq
  have h := feltOfInt_neg (i := -1) (by omega) (by omega)
  omega

/-! ## The fixed-point (`F64`) encoding claim -/

/-- Equation lemma for the `F64` arm of `parse_value`. -/
theorem parse_value_f64 {v : Json} {s : Schema} {q : Rat} (h : v.asF64 = some q) :
    parse_value v (.Primitive "F64") s = .ok [feltOfInt (f64AsI64 (q * 2 ^ 32))] := by
  rw [parse_value.eq_def]
  simp only [h]

/-- C2 (amended): for every JSON number `r` supplied for an `F64` field, the
encoder emits exactly one field element, equal to Rust's saturating `as i64`
cast of `r · 2^32` — truncation **toward zero** clamped to the `i64` range —
interpreted as a signed integer (not the nearest-integer rounding the claim
states). -/
theorem f64_truncation_encoding (jn : JsonNum) (s : Schema) (q : Rat)
    (h : (Json.num jn).asF64 = some q) :
    parse_value (.num jn) (.Primitive "F64") s =
      .ok [feltOfInt (
        if q * 2 ^ 32 < -(2 ^ 63) then -(2 ^ 63)
        else if (2 ^ 63 - 1 : Rat) < q * 2 ^ 32 then 2 ^ 63 - 1
        else if 0 ≤ q * 2 ^ 32 then ⌊q * 2 ^ 32⌋ else ⌈q * 2 ^ 32⌉)] := by
  rw [parse_value_f64 h]
  rfl

/-- Witness for C2 (amended): `0.5` encodes to `2^31`. -/
theorem f64_truncation_encoding_witness :
    (Json.num (.floatN (1 / 2))).asF64 = some (1 / 2) ∧
    parse_value (.num (.floatN (1 / 2))) (.Primitive "F64") ⟨[], "", ""⟩ =
      .ok [2147483648] := by
  refine ⟨rfl, ?_⟩
  rw [f64_truncation_encoding (.floatN (1 / 2)) ⟨[], "", ""⟩ (1 / 2) rfl]
  norm_num
  rw [show (2147483648 : Int) = ((2147483648 : Nat) : Int) by norm_num,
    feltOfInt_ofNat, feltOfNat_small (by rw [feltPrime_eq]; norm_num)]

/-- Counterexample to C2 as stated: for `r = -3 · 2^-34` (an exactly
representable double), `r · 2^32 = -3/4`; the code's `as i64` cast truncates
toward zero and emits the field element `0`, whereas `round(r · 2^32) = -1`
would be the field element `P - 1`. -/
theorem f64_round_claim_cex :
    parse_value (.num (.floatN (-(3 : Rat) / 2 ^ 34))) (.Primitive "F64") ⟨[], "", ""⟩ =
      .ok [0] ∧
    feltOfInt (round ((-(3 : Rat) / 2 ^ 34) * 2 ^ 32)) = feltPrime - 1 ∧
    (0 : Nat) ≠ feltPrime - 1 := by
  have hq : (-(3 : Rat) / 2 ^ 34) * 2 ^ 32 = -(3 / 4 : Rat) := by
    rw [div_mul_eq_mul_div, neg_mul, neg_div]
    norm_num
  refine ⟨?_, ?_, ?_⟩
  · rw [parse_value_f64 (v := .num (.floatN (-(3 : Rat) / 2 ^ 34))) (q := -(3 : Rat) / 2 ^ 34) rfl, hq]
    have hcast : f64AsI64 (-(3 / 4 : Rat)) = 0 := by
      unfold f64AsI64 ratTrunc
      rw [if_neg (by norm_num), if_neg (by norm_num), if_neg (by norm_num)]
      rw [Int.ceil_eq_zero_iff]
      constructor <;> norm_num
    rw [hcast]
    rfl
  · rw [hq]
    have hr : round (-(3 / 4 : Rat)) = -1 := by
      rw [round_eq]
      norm_num
    rw [hr, feltOfInt_neg_one]
  · have := feltPrime_eq
    omega

/-! ## The `felt252` string-encoding claim -/

theorem isDigit_iff {c : Char} : c.isDigit = true ↔ (48 ≤ c.toNat ∧ c.toNat ≤ 57) := by
  simp only [Char.isDigit, Bool.and_eq_true, decide_eq_true_eq, ge_iff_le]
  exact ⟨fun ⟨h1, h2⟩ => ⟨h1, h2⟩, fun ⟨h1, h2⟩ => ⟨h1, h2⟩⟩

theorem char_beq_iff {c d : Char} : (c == d) = true ↔ c.toNat = d.toNat := by
  rw [beq_iff_eq]
  exact ⟨fun h => by rw [h], fun h => Char.eq_of_val_eq (UInt32.ext h)⟩

/-- Every-position predicates lift from an all-digits list to the enumerated
form used by `is_valid_number`. -/
theorem all_enumFrom_digits {l : List Char} (hl : l.all Char.isDigit = true) :
    ∀ k, (List.enumFrom k l).all
      (fun p => p.2.isDigit || (p.1 == 0 && p.2 == minusChar)) = true := by
  induction l with
  | nil => intro k; rfl
  | cons c cs ih =>
    intro k
    simp only [List.all_cons, Bool.and_eq_true] at hl
    rw [List.enumFrom_cons, List.all_cons]
    rw [Bool.and_eq_true]
    refine ⟨?_, ih hl.2 (k + 1)⟩
    simp [hl.1]

/-- A string of decimal digits passes `is_valid_number`. -/
theorem is_valid_number_of_digits {str : String}
    (h : str.toList.all Char.isDigit = true) : is_valid_number str = true := by
  unfold is_valid_number
  rw [show str.toList.enum = List.enumFrom 0 str.toList from rfl]
  exact all_enumFrom_digits h 0

/-- A `-`-led string of digits passes `is_valid_number`. -/
theorem is_valid_number_of_minus_digits {str : String} {ds : List Char}
    (hl : str.toList = minusChar :: ds) (h : ds.all Char.isDigit = true) :
    is_valid_number str = true := by
  unfold is_valid_number
  rw [show str.toList.enum = List.enumFrom 0 str.toList from rfl, hl,
    List.enumFrom_cons, List.all_cons, Bool.and_eq_true]
  exact ⟨by decide, all_enumFrom_digits h 1⟩

/-- A digit character is not `x`. -/
theorem digit_not_x {c : Char} (h : c.isDigit = true) :
    (Char.ofNat 120 == c) = false := by
  rw [Bool.eq_false_iff]
  intro hb
  have h1 := char_beq_iff.mp hb
  have h2 := isDigit_iff.mp h
  rw [show (Char.ofNat 120).toNat = 120 by decide] at h1
  omega

/-- A digit character is not `-`. -/
theorem digit_not_minus {c : Char} (h : c.isDigit = true) :
    (minusChar == c) = false := by
  rw [Bool.eq_false_iff]
  intro hb
  have h1 := char_beq_iff.mp hb
  have h2 := isDigit_iff.mp h
  rw [show minusChar.toNat = 45 by decide] at h1
  omega

/-- A string of digits does not carry the `0x` prefix. -/
theorem strStarts0x_of_digits {str : String}
    (h : str.toList.all Char.isDigit = true) : strStarts str "0x" = false := by
  unfold strStarts
  rw [show "0x".toList = [Char.ofNat 48, Char.ofNat 120] by decide]
  cases hl : str.toList with
  | nil => rfl
  | cons d0 tl =>
    cases tl with
    | nil => simp [listPfx]
    | cons d1 tl2 =>
      rw [hl] at h
      simp only [List.all_cons, Bool.and_eq_true] at h
      unfold listPfx listPfx listPfx
      rw [digit_not_x h.2.1]
      simp

/-- A `-`-led string does not carry the `0x` prefix. -/
theorem strStarts0x_of_minus {str : String} {ds : List Char}
    (hl : str.toList = minusChar :: ds) : strStarts str "0x" = false := by
  unfold strStarts
  rw [show "0x".toList = [Char.ofNat 48, Char.ofNat 120] by decide, hl]
  unfold listPfx
  rw [show (Char.ofNat 48 == minusChar) = false by decide]
  simp

/-- A digit-led string does not start with `-`. -/
theorem strStartsMinus_of_digits {str : String}
    (h : str.toList.all Char.isDigit = true) : strStarts str "-" = false := by
  unfold strStarts
  rw [show "-".toList = [minusChar] by decide]
  cases hl : str.toList with
  | nil => rfl
  | cons d0 tl =>
    rw [hl] at h
    simp only [List.all_cons, Bool.and_eq_true] at h
    unfold listPfx
    rw [digit_not_minus h.1]
    simp

/-- A `-`-led string starts with `-`. -/
theorem strStartsMinus_of_minus {str : String} {ds : List Char}
    (hl : str.toList = minusChar :: ds) : strStarts str "-" = true := by
  unfold strStarts
  rw [show "-".toList = [minusChar] by decide, hl]
  unfold listPfx
  simp [listPfx]

theorem char_toNat_lt (c : Char) : c.toNat < 1114112 := by
  have h := c.valid
  simp [UInt32.isValidChar, Nat.isValidChar] at h
  unfold Char.toNat
  rcases h with h | ⟨h1, h2⟩ <;> omega

theorem utf8Bytes_lt {c : Char} {b : Nat} (hb : b ∈ utf8Bytes c) : b < 256 := by
  have hc := char_toNat_lt c
  unfold utf8Bytes at hb
  dsimp only at hb
  split at hb
  · simp at hb; omega
  · split at hb
    · simp at hb; rcases hb with h | h <;> omega
    · split at hb
      · simp at hb; rcases hb with h | h | h <;> omega
      · simp at hb; rcases hb with h | h | h | h <;> omega

theorem utf8Bytes_ne_nil (c : Char) : utf8Bytes c ≠ [] := by
  unfold utf8Bytes
  dsimp only
  split
  · simp
  · split
    · simp
    · split <;> simp

theorem bytesOfChars_lt :
    ∀ (cs : List Char) (b : Nat),
      b ∈ cs.foldr (fun c acc => utf8Bytes c ++ acc) [] → b < 256 := by
  intro cs
  induction cs with
  | nil => intro b hb; simp at hb
  | cons c cs ih =>
    intro b hb
    rw [List.foldr_cons] at hb
    rcases List.mem_append.mp hb with h | h
    · exact utf8Bytes_lt h
    · exact ih b h

theorem bytesOfString_lt {str : String} {b : Nat} (hb : b ∈ bytesOfString str) :
    b < 256 :=
  bytesOfChars_lt str.toList b hb

theorem bytesOfString_ne_nil {str : String} (h : str.toList ≠ []) :
    bytesOfString str ≠ [] := by
  unfold bytesOfString
  cases hl : str.toList with
  | nil => exact absurd hl h
  | cons c cs =>
    rw [List.foldr_cons]
    intro habs
    exact utf8Bytes_ne_nil c (List.append_eq_nil.mp habs).1

theorem packBE_foldl_lt (bs : List Nat) (a : Nat) (hlt : ∀ b ∈ bs, b < 256) :
    bs.foldl (fun acc b => acc * 256 + b) a < (a + 1) * 256 ^ bs.length := by
  induction bs generalizing a with
  | nil => simp
  | cons b bs ih =>
    rw [List.foldl_cons, List.length_cons]
    have hb : b < 256 := hlt b (by simp)
    calc (bs.foldl (fun acc b => acc * 256 + b) (a * 256 + b))
        < (a * 256 + b + 1) * 256 ^ bs.length :=
          ih (a * 256 + b) (fun x hx => hlt x (by simp [hx]))
      _ ≤ ((a + 1) * 256) * 256 ^ bs.length :=
          Nat.mul_le_mul_right _ (by omega)
      _ = (a + 1) * 256 ^ (bs.length + 1) := by
          rw [pow_succ]
          ring

theorem packBE_lt {bs : List Nat} (hlt : ∀ b ∈ bs, b < 256) :
    packBE bs < 256 ^ bs.length := by
  have := packBE_foldl_lt bs 0 hlt
  simpa [packBE] using this

theorem hexDigitVal_hexChar : ∀ x, x < 16 → hexDigitVal (hexChar x) = x := by decide

theorem isHexDigitChar_hexChar : ∀ x, x < 16 → isHexDigitChar (hexChar x) = true := by
  decide

theorem hexEncode_foldl (bs : List Nat) (a : Nat) (hlt : ∀ b ∈ bs, b < 256) :
    (hexEncode bs).foldl (fun acc c => acc * 16 + hexDigitVal c) a =
      bs.foldl (fun acc b => acc * 256 + b) a := by
  induction bs generalizing a with
  | nil => rfl
  | cons b bs ih =>
    have hb : b < 256 := hlt b (by simp)
    show ((hexChar (b / 16) :: hexChar (b % 16) :: hexEncode bs).foldl
        (fun acc c => acc * 16 + hexDigitVal c) a) = _
    rw [List.foldl_cons, List.foldl_cons,
      hexDigitVal_hexChar (b / 16) (by omega),
      hexDigitVal_hexChar (b % 16) (by omega),
      ih _ (fun x hx => hlt x (by simp [hx])), List.foldl_cons]
    congr 1
    omega

theorem hexToNat_hexEncode {bs : List Nat} (hlt : ∀ b ∈ bs, b < 256) :
    hexToNat (hexEncode bs) = packBE bs :=
  hexEncode_foldl bs 0 hlt

theorem hexEncode_all_hex {bs : List Nat} (hlt : ∀ b ∈ bs, b < 256) :
    (hexEncode bs).all isHexDigitChar = true := by
  induction bs with
  | nil => rfl
  | cons b bs ih =>
    have hb : b < 256 := hlt b (by simp)
    show ((hexChar (b / 16) :: hexChar (b % 16) :: hexEncode bs).all isHexDigitChar) = true
    rw [List.all_cons, List.all_cons,
      isHexDigitChar_hexChar (b / 16) (by omega),
      isHexDigitChar_hexChar (b % 16) (by omega),
      ih (fun x hx => hlt x (by simp [hx]))]
    rfl

theorem hexEncode_ne_nil {bs : List Nat} (h : bs ≠ []) : hexEncode bs ≠ [] := by
  cases bs with
  | nil => exact absurd rfl h
  | cons b bs => exact fun habs => List.noConfusion habs

theorem is_valid_number_nil {str : String} (h : str.toList = []) :
    is_valid_number str = true := by
  unfold is_valid_number
  rw [show str.toList.enum = List.enumFrom 0 str.toList from rfl, h]
  rfl

/-- Equation lemma for the `felt252` arm of `parse_value`. -/
theorem parse_value_felt252 {v : Json} {s : Schema} {str : String}
    (h : v.asStr = some str) :
    parse_value v (.Primitive "felt252") s = (feltEncodeStr str).map (fun f => [f]) := by
  rw [parse_value.eq_def]
  simp only [h]

/-- C6: dispatch of the `felt252` string encoder. A plain decimal-digit
string (optionally with a single leading `-`) or a `0x`-prefixed hex string is
parsed numerically into the field element it denotes; any other string is
packed as the hex value of its UTF-8 bytes ("short string", here stated for
strings of at most 31 bytes, the packing's field-element capacity). -/
theorem felt252_string_encoding :
    (∀ (s : Schema) (str : String),
      str.toList ≠ [] → str.toList.all Char.isDigit = true →
      decimalToNat str.toList < feltPrime →
      parse_value (.str str) (.Primitive "felt252") s =
        .ok [decimalToNat str.toList]) ∧
    (∀ (s : Schema) (str : String) (ds : List Char),
      str.toList = minusChar :: ds → ds ≠ [] → ds.all Char.isDigit = true →
      parse_value (.str str) (.Primitive "felt252") s =
        .ok [feltOfInt (-(decimalToNat ds : Int))]) ∧
    (∀ (s : Schema) (str : String) (ds : List Char),
      str.toList = Char.ofNat 48 :: Char.ofNat 120 :: ds → ds ≠ [] →
      ds.all isHexDigitChar = true → hexToNat ds < feltPrime →
      parse_value (.str str) (.Primitive "felt252") s = .ok [hexToNat ds]) ∧
    (∀ (s : Schema) (str : String),
      is_valid_number str = false → strStarts str "0x" = false →
      (bytesOfString str).length ≤ 31 →
      parse_value (.str str) (.Primitive "felt252") s =
        .ok [packBE (bytesOfString str)]) := by
  refine ⟨?_, ?_, ?_, ?_⟩
  · intro s str hne hdig hlt
    rw [parse_value_felt252 (v := .str str) rfl]
    unfold feltEncodeStr
    rw [is_valid_number_of_digits hdig]
    simp only [Bool.true_or, if_true]
    unfold feltFromStr
    rw [strStarts0x_of_digits hdig]
    simp only [Bool.false_eq_true, if_false]
    rw [strStartsMinus_of_digits hdig]
    simp only [Bool.false_eq_true, if_false]
    rw [if_pos ⟨hne, hdig⟩, feltOfNat_small hlt]
    rfl
  · intro s str ds hl hne hdig
    rw [parse_value_felt252 (v := .str str) rfl]
    unfold feltEncodeStr
    rw [is_valid_number_of_minus_digits hl hdig]
    simp only [Bool.true_or, if_true]
    unfold feltFromStr
    rw [strStarts0x_of_minus hl]
    simp only [Bool.false_eq_true, if_false]
    rw [strStartsMinus_of_minus hl]
    simp only [if_true]
    rw [hl]
    simp only [List.drop_succ_cons, List.drop_zero]
    rw [if_pos ⟨hne, hdig⟩]
    rfl
  · intro s str ds hl hne hhex hlt
    have h0x : strStarts str "0x" = true := by
      unfold strStarts
      rw [show "0x".toList = [Char.ofNat 48, Char.ofNat 120] by decide, hl]
      simp [listPfx]
    rw [parse_value_felt252 (v := .str str) rfl]
    unfold feltEncodeStr
    rw [h0x]
    simp only [Bool.or_true, if_true]
    unfold feltFromStr
    rw [h0x]
    simp only [if_true, hl]
    simp only [List.drop_succ_cons, List.drop_zero]
    rw [if_pos ⟨hne, hhex⟩, feltOfNat_small hlt]
    rfl
  · intro s str hnum h0x hlen
    have hblt : ∀ b ∈ bytesOfString str, b < 256 := fun b hb => bytesOfString_lt hb
    have hsne : str.toList ≠ [] := fun h => by
      rw [is_valid_number_nil h] at hnum
      exact Bool.noConfusion hnum
    have hbne : bytesOfString str ≠ [] := bytesOfString_ne_nil hsne
    rw [parse_value_felt252 (v := .str str) rfl]
    unfold feltEncodeStr
    rw [hnum, h0x]
    simp only [Bool.or_self, Bool.false_eq_true, if_false]
    unfold feltFromStr
    have hmk : strStarts (String.mk (Char.ofNat 48 :: Char.ofNat 120 ::
        hexEncode (bytesOfString str))) "0x" = true := by
      unfold strStarts
      rw [show "0x".toList = [Char.ofNat 48, Char.ofNat 120] by decide]
      simp [listPfx]
    rw [hmk]
    simp only [if_true]
    rw [show (String.mk (Char.ofNat 48 :: Char.ofNat 120 ::
        hexEncode (bytesOfString str))).toList =
      Char.ofNat 48 :: Char.ofNat 120 :: hexEncode (bytesOfString str) from rfl]
    simp only [List.drop_succ_cons, List.drop_zero]
    rw [if_pos ⟨hexEncode_ne_nil hbne, hexEncode_all_hex hblt⟩]
    rw [hexToNat_hexEncode hblt]
    rw [feltOfNat_small (by
      calc packBE (bytesOfString str) < 256 ^ (bytesOfString str).length :=
            packBE_lt hblt
        _ ≤ 256 ^ 31 := Nat.pow_le_pow_right (by norm_num) hlen
        _ < feltPrime := by rw [feltPrime_eq]; norm_num)]
    rfl

/-- Witness for C6: `"42"` encodes to 42, `"0x2a"` to 42, `"hi"` to
`0x6869 = 26729`. -/
theorem felt252_string_encoding_witness :
    parse_value (.str "42") (.Primitive "felt252") ⟨[], "", ""⟩ = .ok [42] ∧
    parse_value (.str "0x2a") (.Primitive "felt252") ⟨[], "", ""⟩ = .ok [42] ∧
    parse_value (.str "hi") (.Primitive "felt252") ⟨[], "", ""⟩ = .ok [26729] := by
  have h42 : decimalToNat "42".toList = 42 := by decide
  have h2a : hexToNat ['2', 'a'] = 42 := by decide
  have hhi : packBE (bytesOfString "hi") = 26729 := by decide
  refine ⟨?_, ?_, ?_⟩
  · rw [felt252_string_encoding.1 ⟨[], "", ""⟩ "42" (by decide) (by decide)
      (by rw [h42, feltPrime_eq]; norm_num), h42]
  · rw [felt252_string_encoding.2.2.1 ⟨[], "", ""⟩ "0x2a" ['2', 'a'] (by decide)
      (by decide) (by decide) (by rw [h2a, feltPrime_eq]; norm_num), h2a]
  · rw [felt252_string_encoding.2.2.2 ⟨[], "", ""⟩ "hi" (by decide) (by decide)
      (by decide), hhi]

/-! ## Round-trip: depth, well-formedness and accessor inversion lemmas -/

theorem jsonDepth_pos (v : Json) : 1 ≤ jsonDepth v := by
  cases v <;> simp [jsonDepth] <;> omega

theorem jsonDepthList_mem {x : Json} {xs : List Json} (h : x ∈ xs) :
    jsonDepth x ≤ jsonDepthList xs := by
  induction xs with
  | nil => simp at h
  | cons y ys ih =>
    rw [jsonDepthList]
    rcases List.mem_cons.mp h with rfl | h
    · exact le_max_left _ _
    · exact le_trans (ih h) (le_max_right _ _)

theorem jsonDepthFields_val {fields : List (String × Json)} {k : String} {w : Json}
    (h : lookupField fields k = some w) : jsonDepth w ≤ jsonDepthFields fields := by
  induction fields with
  | nil => simp [lookupField] at h
  | cons p rest ih =>
    obtain ⟨k2, v2⟩ := p
    rw [jsonDepthFields]
    simp only [lookupField] at h
    by_cases hk : k2 = k
    · rw [if_pos hk] at h
      cases h
      exact le_max_left _ _
    · rw [if_neg hk] at h
      exact le_trans (ih h) (le_max_right _ _)

theorem jsonDepth_get {v : Json} {k : String} {w : Json}
    (h : jsonGet v k = some w) : jsonDepth w + 2 ≤ jsonDepth v := by
  cases v with
  | obj fields =>
    simp only [jsonGet] at h
    rw [show jsonDepth (Json.obj fields) = 2 + jsonDepthFields fields from rfl]
    have := jsonDepthFields_val h
    omega
  | null => simp [jsonGet] at h
  | bool b => simp [jsonGet] at h
  | num n => simp [jsonGet] at h
  | str s => simp [jsonGet] at h
  | arr xs => simp [jsonGet] at h

theorem jsonWFFields_val {fields : List (String × Json)} {k : String} {w : Json}
    (h : lookupField fields k = some w) (hwf : jsonWFFields fields = true) :
    jsonWF w = true := by
  induction fields with
  | nil => simp [lookupField] at h
  | cons p rest ih =>
    obtain ⟨k2, v2⟩ := p
    rw [jsonWFFields, Bool.and_eq_true] at hwf
    simp only [lookupField] at h
    by_cases hk : k2 = k
    · rw [if_pos hk] at h
      cases h
      exact hwf.1
    · rw [if_neg hk] at h
      exact ih h hwf.2

theorem jsonWF_get {v : Json} {k : String} {w : Json}
    (h : jsonGet v k = some w) (hwf : jsonWF v = true) : jsonWF w = true := by
  cases v with
  | obj fields =>
    simp only [jsonGet] at h
    exact jsonWFFields_val h hwf
  | null => simp [jsonGet] at h
  | bool b => simp [jsonGet] at h
  | num n => simp [jsonGet] at h
  | str s => simp [jsonGet] at h
  | arr xs => simp [jsonGet] at h

theorem jsonWFList_mem {x : Json} {xs : List Json} (hwf : jsonWFList xs = true)
    (h : x ∈ xs) : jsonWF x = true := by
  induction xs with
  | nil => simp at h
  | cons y ys ih =>
    rw [jsonWFList, Bool.and_eq_true] at hwf
    rcases List.mem_cons.mp h with rfl | h
    · exact hwf.1
    · exact ih hwf.2 h

theorem jsonWF_arr {xs : List Json} (h : jsonWF (.arr xs) = true) :
    xs.length < feltPrime ∧ jsonWFList xs = true := by
  rw [jsonWF, Bool.and_eq_true, decide_eq_true_eq] at h
  exact h

theorem asU64_inv {v : Json} {n : Nat} (h : v.asU64 = some n) :
    v = .num (.uintN n) := by
  cases v with
  | num jn =>
    cases jn with
    | uintN m => simp [Json.asU64] at h; rw [h]
    | intN i => simp [Json.asU64] at h
    | floatN q => simp [Json.asU64] at h
  | null => simp [Json.asU64] at h
  | bool b => simp [Json.asU64] at h
  | str s => simp [Json.asU64] at h
  | arr l => simp [Json.asU64] at h
  | obj l => simp [Json.asU64] at h

theorem asI64_inv {v : Json} {i : Int} (h : v.asI64 = some i) :
    (∃ n : Nat, v = .num (.uintN n) ∧ (n : Int) = i ∧ n ≤ 2 ^ 63 - 1) ∨
    (∃ j : Int, v = .num (.intN j) ∧ j = i) := by
  cases v with
  | num jn =>
    cases jn with
    | uintN m =>
      simp only [Json.asI64] at h
      by_cases hm : m ≤ 2 ^ 63 - 1
      · rw [if_pos hm] at h
        cases h
        exact Or.inl ⟨m, rfl, rfl, hm⟩
      · rw [if_neg hm] at h
        exact absurd h (by simp)
    | intN j => simp [Json.asI64] at h; exact Or.inr ⟨j, rfl, h⟩
    | floatN q => simp [Json.asI64] at h
  | null => simp [Json.asI64] at h
  | bool b => simp [Json.asI64] at h
  | str s => simp [Json.asI64] at h
  | arr l => simp [Json.asI64] at h
  | obj l => simp [Json.asI64] at h

theorem asF64_inv {v : Json} {q : Rat} (h : v.asF64 = some q) :
    ∃ jn, v = .num jn := by
  cases v with
  | num jn => exact ⟨jn, rfl⟩
  | null => simp [Json.asF64] at h
  | bool b => simp [Json.asF64] at h
  | str s => simp [Json.asF64] at h
  | arr l => simp [Json.asF64] at h
  | obj l => simp [Json.asF64] at h

theorem asStr_inv {v : Json} {str : String} (h : v.asStr = some str) :
    v = .str str := by
  cases v <;> simp [Json.asStr] at h
  rw [h]

theorem asBool_inv {v : Json} {b : Bool} (h : v.asBool = some b) :
    v = .bool b := by
  cases v <;> simp [Json.asBool] at h
  rw [h]

theorem asArr_inv {v : Json} {xs : List Json} (h : v.asArr = some xs) :
    v = .arr xs := by
  cases v <;> simp [Json.asArr] at h
  rw [h]

theorem jsonWF_uint {n : Nat} (h : jsonWF (.num (.uintN n)) = true) : n < 2 ^ 64 := by
  rw [jsonWF, decide_eq_true_eq] at h
  exact h

theorem jsonWF_int {i : Int} (h : jsonWF (.num (.intN i)) = true) :
    -(2 ^ 63) ≤ i ∧ i < 0 := by
  rw [jsonWF, decide_eq_true_eq] at h
  exact h

theorem jsonWF_str {str : String} (h : jsonWF (.str str) = true) :
    (bytesOfString str).length < 2 ^ 64 := by
  rw [jsonWF, decide_eq_true_eq] at h
  exact h

/-! ## Round-trip: `f64ok` extraction and reference-decoder equations -/

theorem f64ok_f64 {v : Json} {s : Schema} {q : Rat}
    (hf : f64ok v (.Primitive "F64") s = true) (hq : v.asF64 = some q) :
    -(2 ^ 63 : Rat) ≤ q * 2 ^ 32 ∧ (q * 2 ^ 32 : Rat) ≤ 2 ^ 63 - 1 := by
  rw [f64ok.eq_def] at hf
  dsimp only at hf
  rw [if_pos rfl, hq] at hf
  exact of_decide_eq_true hf

theorem f64ok_arr {v : Json} {s : Schema} {t : SchemaType} {xs : List Json}
    (hf : f64ok v (.Array t) s = true) (hx : v.asArr = some xs) :
    f64okList xs t s = true := by
  rw [f64ok.eq_def] at hf
  dsimp only at hf
  split at hf
  · rename_i hw
    rw [hx] at hw
    cases hw
    exact hf
  · rename_i hw
    rw [hx] at hw
    exact absurd hw (by simp)

theorem f64ok_span {v : Json} {s : Schema} {t : SchemaType} {xs : List Json}
    (hf : f64ok v (.Span t) s = true) (hx : v.asArr = some xs) :
    f64okList xs t s = true := by
  rw [f64ok.eq_def] at hf
  dsimp only at hf
  split at hf
  · rename_i hw
    rw [hx] at hw
    cases hw
    exact hf
  · rename_i hw
    rw [hx] at hw
    exact absurd hw (by simp)

theorem f64ok_struct {v : Json} {s : Schema} {name : String} {d : SchemaDef}
    (hf : f64ok v (.Struct name) s = true) (hl : lookupSchema s name = some d) :
    f64okFields v d.fields s = true := by
  rw [f64ok.eq_def] at hf
  dsimp only at hf
  rw [hl] at hf
  exact hf

theorem f64okList_cons {x : Json} {xs : List Json} {t : SchemaType} {s : Schema}
    (hf : f64okList (x :: xs) t s = true) :
    f64ok x t s = true ∧ f64okList xs t s = true := by
  rw [f64okList, Bool.and_eq_true] at hf
  exact hf

theorem f64okFields_cons {v : Json} {f : NamedSchemaType}
    {rest : List NamedSchemaType} {s : Schema} {w : Json}
    (hf : f64okFields v (f :: rest) s = true) (hg : jsonGet v f.name = some w) :
    f64ok w f.ty s = true ∧ f64okFields v rest s = true := by
  rw [f64okFields, Bool.and_eq_true] at hf
  obtain ⟨h1, h2⟩ := hf
  refine ⟨?_, h2⟩
  split at h1
  · rename_i w2 hw
    rw [hg] at hw
    cases hw
    exact h1
  · rename_i hw
    rw [hg] at hw
    exact absurd hw (by simp)

theorem refDecode_uint {name : String}
    (hname : name = "u64" ∨ name = "u32" ∨ name = "u16" ∨ name = "u8")
    (fuel : Nat) (s : Schema) (f : Nat) (rest : List Nat) :
    refDecode (fuel + 1) (.Primitive name) s (f :: rest) = some (.uintD f, rest) := by
  rcases hname with rfl | rfl | rfl | rfl <;> (rw [refDecode.eq_def]; rfl)

theorem refDecode_sint {name : String}
    (hname : name = "i64" ∨ name = "i32" ∨ name = "i16" ∨ name = "i8")
    (fuel : Nat) (s : Schema) (f : Nat) (rest : List Nat) :
    refDecode (fuel + 1) (.Primitive name) s (f :: rest) =
      some (.intD (signedFelt f), rest) := by
  rcases hname with rfl | rfl | rfl | rfl <;> (rw [refDecode.eq_def]; rfl)

theorem refDecode_f64 (fuel : Nat) (s : Schema) (f : Nat) (rest : List Nat) :
    refDecode (fuel + 1) (.Primitive "F64") s (f :: rest) =
      some (.fixedD ((signedFelt f : Rat) / 2 ^ 32), rest) := by
  rw [refDecode.eq_def]
  rfl

theorem refDecode_felt (fuel : Nat) (s : Schema) (f : Nat) (rest : List Nat) :
    refDecode (fuel + 1) (.Primitive "felt252") s (f :: rest) =
      some (.feltD f, rest) := by
  rw [refDecode.eq_def]
  rfl

theorem refDecode_bool (fuel : Nat) (s : Schema) (f : Nat) (rest : List Nat) :
    refDecode (fuel + 1) (.Primitive "bool") s (f :: rest) =
      some (.boolD (f != 0), rest) := by
  rw [refDecode.eq_def]
  rfl

theorem refDecode_bytes (fuel : Nat) (s : Schema) (ws : List Nat)
    (pw pl : Nat) (rest : List Nat) :
    refDecode (fuel + 1) (.Primitive "ByteArray") s
        (ws.length :: (ws ++ pw :: pl :: rest)) =
      some (.bytesD ws pw pl, rest) := by
  rw [refDecode.eq_def]
  dsimp only
  have hle : ws.length ≤ (ws ++ pw :: pl :: rest).length := by
    rw [List.length_append]
    omega
  rw [if_pos hle, List.take_left, List.drop_left]
  rfl

theorem refDecode_arr (fuel : Nat) (t : SchemaType) (s : Schema) (c : Nat)
    (rest : List Nat) :
    refDecode (fuel + 1) (.Array t) s (c :: rest) =
      match refDecodeElems fuel c t s rest with
      | some (ds, rest2) => some (.arrD ds, rest2)
      | none => none := by
  rw [refDecode.eq_def]

theorem refDecode_span (fuel : Nat) (t : SchemaType) (s : Schema) (c : Nat)
    (rest : List Nat) :
    refDecode (fuel + 1) (.Span t) s (c :: rest) =
      match refDecodeElems fuel c t s rest with
      | some (ds, rest2) => some (.arrD ds, rest2)
      | none => none := by
  rw [refDecode.eq_def]

theorem refDecode_struct {s : Schema} {name : String} {d : SchemaDef}
    (hl : lookupSchema s name = some d) (fuel : Nat) (st : List Nat) :
    refDecode (fuel + 1) (.Struct name) s st =
      match refDecodeFields fuel d.fields s st with
      | some (fs, rest) => some (.objD fs, rest)
      | none => none := by
  rw [refDecode.eq_def]
  dsimp only
  rw [hl]

theorem refDecodeElems_zero (fuel : Nat) (t : SchemaType) (s : Schema)
    (st : List Nat) : refDecodeElems fuel 0 t s st = some ([], st) := by
  rw [refDecodeElems]

theorem refDecodeElems_succ (fuel c : Nat) (t : SchemaType) (s : Schema)
    (st : List Nat) :
    refDecodeElems fuel (c + 1) t s st =
      match refDecode fuel t s st with
      | some (d, st2) =>
        match refDecodeElems fuel c t s st2 with
        | some (ds, st3) => some (d :: ds, st3)
        | none => none
      | none => none := by
  rw [refDecodeElems]

theorem refDecodeFields_nil (fuel : Nat) (s : Schema) (st : List Nat) :
    refDecodeFields fuel [] s st = some ([], st) := by
  rw [refDecodeFields]

theorem refDecodeFields_cons (fuel : Nat) (f : NamedSchemaType)
    (rest : List NamedSchemaType) (s : Schema) (st : List Nat) :
    refDecodeFields fuel (f :: rest) s st =
      match refDecode fuel f.ty s st with
      | some (d, st2) =>
        match refDecodeFields fuel rest s st2 with
        | some (ds, st3) => some ((f.name, d) :: ds, st3)
        | none => none
      | none => none := by
  rw [refDecodeFields]

/-! ## Round-trip: byte-chunking bounds and the list/field round-trip lemmas -/

theorem chunkBytes_ge {l : List Nat} (h : 31 ≤ l.length) :
    chunkBytes l = l.take 31 :: chunkBytes (l.drop 31) := by
  rw [chunkBytes]
  rw [dif_pos h]

theorem chunkBytes_low {l : List Nat} (h : ¬ 31 ≤ l.length) :
    chunkBytes l = [] := by
  rw [chunkBytes]
  rw [dif_neg h]

theorem restBytes_ge {l : List Nat} (h : 31 ≤ l.length) :
    restBytes l = restBytes (l.drop 31) := by
  rw [restBytes]
  rw [dif_pos h]

theorem restBytes_low {l : List Nat} (h : ¬ 31 ≤ l.length) :
    restBytes l = l := by
  rw [restBytes]
  rw [dif_neg h]

theorem chunkBytes_len : ∀ (n : Nat) (l : List Nat), l.length ≤ n →
    (chunkBytes l).length ≤ l.length := by
  intro n
  induction n with
  | zero =>
    intro l hl
    rw [chunkBytes_low (by omega)]
    simp
  | succ n ih =>
    intro l hl
    by_cases h : 31 ≤ l.length
    · rw [chunkBytes_ge h, List.length_cons]
      have hd : (l.drop 31).length = l.length - 31 := by simp
      have := ih (l.drop 31) (by omega)
      omega
    · rw [chunkBytes_low h]
      simp

theorem chunkBytes_mem : ∀ (n : Nat) (l : List Nat), l.length ≤ n →
    ∀ w ∈ chunkBytes l, (∀ b ∈ w, b ∈ l) ∧ w.length ≤ 31 := by
  intro n
  induction n with
  | zero =>
    intro l hl w hw
    rw [chunkBytes_low (by omega)] at hw
    simp at hw
  | succ n ih =>
    intro l hl w hw
    by_cases h : 31 ≤ l.length
    · rw [chunkBytes_ge h] at hw
      rcases List.mem_cons.mp hw with rfl | hw
      · exact ⟨fun b hb => List.mem_of_mem_take hb, by simp⟩
      · have hd : (l.drop 31).length = l.length - 31 := by simp
        obtain ⟨h1, h2⟩ := ih (l.drop 31) (by omega) w hw
        exact ⟨fun b hb => List.mem_of_mem_drop (h1 b hb), h2⟩
    · rw [chunkBytes_low h] at hw
      simp at hw

theorem restBytes_short : ∀ (n : Nat) (l : List Nat), l.length ≤ n →
    (∀ b ∈ restBytes l, b ∈ l) ∧ (restBytes l).length ≤ 30 := by
  intro n
  induction n with
  | zero =>
    intro l hl
    rw [restBytes_low (by omega)]
    exact ⟨fun b hb => hb, by omega⟩
  | succ n ih =>
    intro l hl
    by_cases h : 31 ≤ l.length
    · rw [restBytes_ge h]
      have hd : (l.drop 31).length = l.length - 31 := by simp
      obtain ⟨h1, h2⟩ := ih (l.drop 31) (by omega)
      exact ⟨fun b hb => List.mem_of_mem_drop (h1 b hb), h2⟩
    · rw [restBytes_low h]
      exact ⟨fun b hb => hb, by omega⟩

theorem packBE_small {w : List Nat} (hb : ∀ b ∈ w, b < 256) (hlen : w.length ≤ 31) :
    feltOfNat (packBE w) = packBE w := by
  refine feltOfNat_small ?_
  calc packBE w < 256 ^ w.length := packBE_lt hb
    _ ≤ 256 ^ 31 := Nat.pow_le_pow_right (by norm_num) hlen
    _ < feltPrime := by rw [feltPrime_eq]; norm_num

/-- Equation lemma: the `Struct` arm of `parse_value` delegates to
`parse_schema`. -/
theorem parse_value_struct (v : Json) (name : String) (s : Schema) :
    parse_value v (.Struct name) s = parse_schema v name s := by
  rw [parse_value.eq_def]

/-- Round-trip of an element list, given the round trip of each element. -/
theorem rt_elems (s : Schema) (t : SchemaType) :
    ∀ (xs : List Json) (parts : List Nat),
      (∀ x ∈ xs, ∀ (out : List Nat),
        parse_value x t s = .ok out → jsonWF x = true → f64ok x t s = true →
        ∀ (fuel : Nat) (rest : List Nat), jsonDepth x ≤ fuel →
          ∃ d, refDecode fuel t s (out ++ rest) = some (d, rest) ∧ Agrees s x t d) →
      parse_elems xs t s = .ok parts →
      jsonWFList xs = true → f64okList xs t s = true →
      ∀ (fuel : Nat) (rest : List Nat), (∀ x ∈ xs, jsonDepth x ≤ fuel) →
        ∃ ds, refDecodeElems fuel xs.length t s (parts ++ rest) = some (ds, rest) ∧
          AgreesList s xs t ds := by
  intro xs
  induction xs with
  | nil =>
    intro parts _ henc _ _ fuel rest _
    rw [parse_elems] at henc
    cases henc
    rw [List.length_nil, refDecodeElems_zero, List.nil_append]
    exact ⟨[], rfl, AgreesList.nil s t⟩
  | cons x xs ih =>
    intro parts IH henc hwf hf fuel rest hfuel
    rw [parse_elems] at henc
    cases hx : parse_value x t s with
    | error e =>
      rw [hx] at henc
      simp [Except.bind, bind] at henc
    | ok p =>
      cases hm : parse_elems xs t s with
      | error e =>
        rw [hx, hm] at henc
        simp [Except.bind, bind] at henc
      | ok more =>
        rw [hx, hm] at henc
        simp only [Except.bind, bind, Except.ok.injEq] at henc
        rw [jsonWFList, Bool.and_eq_true] at hwf
        obtain ⟨hf1, hf2⟩ := f64okList_cons hf
        obtain ⟨d, hd, ha⟩ :=
          IH x (by simp) p hx hwf.1 hf1 fuel (more ++ rest) (hfuel x (by simp))
        obtain ⟨ds, hds, has⟩ :=
          ih more (fun y hy => IH y (by simp [hy])) hm hwf.2 hf2 fuel rest
            (fun y hy => hfuel y (by simp [hy]))
        refine ⟨d :: ds, ?_, AgreesList.cons s x xs t d ds ha has⟩
        rw [List.length_cons, refDecodeElems_succ, ← henc, List.append_assoc, hd]
        dsimp only
        rw [hds]

/-- Round-trip of a record's fields, given the round trip of each member. -/
theorem rt_fields (s : Schema) (v : Json) (name : String) :
    ∀ (fields : List NamedSchemaType) (out : List Nat),
      (∀ (w : Json) (k : String), jsonGet v k = some w →
        ∀ (ty : SchemaType) (out2 : List Nat),
          parse_value w ty s = .ok out2 → jsonWF w = true → f64ok w ty s = true →
          ∀ (fuel : Nat) (rest : List Nat), jsonDepth w ≤ fuel →
            ∃ d, refDecode fuel ty s (out2 ++ rest) = some (d, rest) ∧ Agrees s w ty d) →
      parse_fields v fields name s = .ok out →
      jsonWF v = true → f64okFields v fields s = true →
      ∀ (fuel : Nat) (rest : List Nat),
        (∀ (w : Json) (k : String), jsonGet v k = some w → jsonDepth w ≤ fuel) →
        ∃ ds, refDecodeFields fuel fields s (out ++ rest) = some (ds, rest) ∧
          AgreesFields s v fields ds := by
  intro fields
  induction fields with
  | nil =>
    intro out IH henc hwf hf fuel rest hfuel
    rw [parse_fields] at henc
    cases henc
    rw [refDecodeFields_nil, List.nil_append]
    exact ⟨[], rfl, AgreesFields.nil s v⟩
  | cons f fs ih =>
    intro out IH henc hwf hf fuel rest hfuel
    cases hg : jsonGet v f.name with
    | none =>
      rw [parse_fields_cons_none hg] at henc
      exact absurd henc (by simp)
    | some w =>
      rw [parse_fields_cons_some hg] at henc
      cases hx : parse_value w f.ty s with
      | error e =>
        rw [hx] at henc
        simp [Except.bind, bind] at henc
      | ok p =>
        cases hm : parse_fields v fs name s with
        | error e =>
          rw [hx, hm] at henc
          simp [Except.bind, bind] at henc
        | ok more =>
          rw [hx, hm] at henc
          simp only [Except.bind, bind, Except.ok.injEq] at henc
          obtain ⟨hf1, hf2⟩ := f64okFields_cons hf hg
          have hwfw := jsonWF_get hg hwf
          obtain ⟨d, hd, ha⟩ :=
            IH w f.name hg f.ty p hx hwfw hf1 fuel (more ++ rest) (hfuel w f.name hg)
          obtain ⟨ds, hds, has⟩ := ih more IH hm hwf hf2 fuel rest hfuel
          refine ⟨(f.name, d) :: ds, ?_, AgreesFields.cons s v f fs w d ds hg ha has⟩
          rw [refDecodeFields_cons, ← henc, List.append_assoc, hd]
          dsimp only
          rw [hds]

/-! ## Round-trip: scalar cases -/

theorem ratTrunc_bounds {x : Rat} (h1 : -(2 ^ 63 : Rat) ≤ x) (h2 : x ≤ 2 ^ 63 - 1) :
    -(2 ^ 63) ≤ ratTrunc x ∧ ratTrunc x < 2 ^ 63 ∧ |x - (ratTrunc x : Rat)| < 1 := by
  rw [ratTrunc]
  by_cases h : (0 : Rat) ≤ x
  · rw [if_pos h]
    have hf1 : (0 : Int) ≤ ⌊x⌋ := Int.le_floor.mpr (by exact_mod_cast h)
    have hf2 : ⌊x⌋ ≤ 2 ^ 63 - 1 := by
      have := Int.floor_le_floor (α := Rat) h2
      rwa [show ((2 : Rat) ^ 63 - 1) = ((2 ^ 63 - 1 : Int) : Rat) by push_cast; ring,
        Int.floor_intCast] at this
    refine ⟨by omega, by omega, ?_⟩
    rw [abs_lt]
    constructor
    · have := Int.floor_le x
      linarith
    · have := Int.lt_floor_add_one x
      linarith
  · rw [if_neg h]
    push_neg at h
    have hc1 : ⌈x⌉ ≤ 0 := Int.ceil_le.mpr (by exact_mod_cast h.le)
    have hc2 : -(2 ^ 63) ≤ ⌈x⌉ := by
      have h3 : (-(2 ^ 63 : Int) : Rat) ≤ (⌈x⌉ : Rat) := by
        calc (-(2 ^ 63 : Int) : Rat) = -(2 ^ 63 : Rat) := by push_cast; ring
          _ ≤ x := h1
          _ ≤ (⌈x⌉ : Rat) := Int.le_ceil x
      exact_mod_cast h3
    refine ⟨hc2, by omega, ?_⟩
    rw [abs_lt]
    constructor
    · have := Int.ceil_lt_add_one x
      linarith
    · have := Int.le_ceil x
      linarith

theorem rt_uint_case {s : Schema} {v : Json} {num : Nat} {name : String}
    (hname : name = "u64" ∨ name = "u32" ∨ name = "u16" ∨ name = "u8")
    (heq : v.asU64 = some num) (hwf : jsonWF v = true) (fuel : Nat) (rest : List Nat) :
    ∃ d, refDecode (fuel + 1) (.Primitive name) s ([feltOfNat num] ++ rest) =
        some (d, rest) ∧ Agrees s v (.Primitive name) d := by
  obtain rfl := asU64_inv heq
  have hlt := jsonWF_uint hwf
  have hP : (2 : Nat) ^ 64 < feltPrime := by rw [feltPrime_eq]; norm_num
  rw [feltOfNat_small (by omega), List.singleton_append]
  exact ⟨.uintD num, refDecode_uint hname fuel s num rest,
    Agrees.auint s _ name num hname heq⟩

theorem rt_int_case {s : Schema} {v : Json} {i : Int} {name : String}
    (hname : name = "i64" ∨ name = "i32" ∨ name = "i16" ∨ name = "i8")
    (heq : v.asI64 = some i) (hwf : jsonWF v = true) (fuel : Nat) (rest : List Nat) :
    ∃ d, refDecode (fuel + 1) (.Primitive name) s ([feltOfInt i] ++ rest) =
        some (d, rest) ∧ Agrees s v (.Primitive name) d := by
  have hbound : -(2 ^ 63) ≤ i ∧ i < 2 ^ 63 := by
    have h63 : (2 : Int) ^ 63 = 9223372036854775808 := by norm_num
    rcases asI64_inv heq with ⟨n, hv, hni, hle⟩ | ⟨j, hv, hji⟩
    · have h63n : (2 : Nat) ^ 63 - 1 = 9223372036854775807 := by norm_num
      rw [h63n] at hle
      rw [h63]
      omega
    · obtain ⟨ha, hb⟩ := jsonWF_int (hv ▸ hwf)
      rw [h63] at ha ⊢
      omega
  obtain ⟨jn, rfl⟩ : ∃ jn, v = .num jn := by
    rcases asI64_inv heq with ⟨n, hv, _, _⟩ | ⟨j, hv, _⟩
    · exact ⟨_, hv⟩
    · exact ⟨_, hv⟩
  rw [List.singleton_append]
  refine ⟨.intD i, ?_, Agrees.aint s jn name i hname heq⟩
  rw [refDecode_sint hname, signedFelt_feltOfInt hbound.1 hbound.2]

theorem rt_f64_case {s : Schema} {v : Json} {q : Rat}
    (heq : v.asF64 = some q) (hf64 : f64ok v (.Primitive "F64") s = true)
    (fuel : Nat) (rest : List Nat) :
    ∃ d, refDecode (fuel + 1) (.Primitive "F64") s
        ([feltOfInt (f64AsI64 (q * 2 ^ 32))] ++ rest) = some (d, rest) ∧
      Agrees s v (.Primitive "F64") d := by
  obtain ⟨jn, rfl⟩ := asF64_inv heq
  obtain ⟨h1, h2⟩ := f64ok_f64 hf64 heq
  have hcast : f64AsI64 (q * 2 ^ 32) = ratTrunc (q * 2 ^ 32) := by
    rw [f64AsI64, if_neg (by linarith), if_neg (by linarith)]
  obtain ⟨ht1, ht2, ht3⟩ := ratTrunc_bounds h1 h2
  rw [List.singleton_append, hcast]
  refine ⟨.fixedD ((ratTrunc (q * 2 ^ 32) : Rat) / 2 ^ 32), ?_, ?_⟩
  · rw [refDecode_f64, signedFelt_feltOfInt ht1 ht2]
  · refine Agrees.afix s jn q _ heq ?_
    have h32 : (0 : Rat) < (1 : Rat) / 2 ^ 32 := by positivity
    have hkey : q - (ratTrunc (q * 2 ^ 32) : Rat) / 2 ^ 32 =
        (q * 2 ^ 32 - (ratTrunc (q * 2 ^ 32) : Rat)) * (1 / 2 ^ 32) := by ring
    rw [hkey, abs_mul, abs_of_pos h32]
    have := mul_lt_mul_of_pos_right ht3 h32
    rwa [one_mul] at this

theorem rt_felt_case {s : Schema} {v : Json} {str : String} {f : Nat}
    (heq : v.asStr = some str) (hfe : feltEncodeStr str = .ok f)
    (fuel : Nat) (rest : List Nat) :
    ∃ d, refDecode (fuel + 1) (.Primitive "felt252") s ([f] ++ rest) =
        some (d, rest) ∧ Agrees s v (.Primitive "felt252") d := by
  obtain rfl := asStr_inv heq
  rw [List.singleton_append]
  exact ⟨.feltD f, refDecode_felt fuel s f rest, Agrees.afelt s str f hfe⟩

theorem rt_bool_case {s : Schema} {v : Json} {b : Bool}
    (heq : v.asBool = some b) (fuel : Nat) (rest : List Nat) :
    ∃ d, refDecode (fuel + 1) (.Primitive "bool") s
        ([feltOfNat (if b then 1 else 0)] ++ rest) = some (d, rest) ∧
      Agrees s v (.Primitive "bool") d := by
  obtain rfl := asBool_inv heq
  have hP : (1 : Nat) < feltPrime := by rw [feltPrime_eq]; norm_num
  cases b with
  | true =>
    rw [if_pos rfl, feltOfNat_small hP, List.singleton_append]
    exact ⟨.boolD true, refDecode_bool fuel s 1 rest, Agrees.abool s true⟩
  | false =>
    rw [if_neg (by simp), show feltOfNat 0 = 0 from rfl, List.singleton_append]
    exact ⟨.boolD false, refDecode_bool fuel s 0 rest, Agrees.abool s false⟩

theorem rt_bytes_case {s : Schema} {v : Json} {str : String}
    (heq : v.asStr = some str) (hwf : jsonWF v = true)
    (fuel : Nat) (rest : List Nat) :
    ∃ d, refDecode (fuel + 1) (.Primitive "ByteArray") s
        (parse_byte_array str ++ rest) = some (d, rest) ∧
      Agrees s v (.Primitive "ByteArray") d := by
  obtain rfl := asStr_inv heq
  have hslen := jsonWF_str hwf
  have hbyte : ∀ b ∈ bytesOfString str, b < 256 := fun b hb => bytesOfString_lt hb
  have hP30 : (30 : Nat) < feltPrime := by rw [feltPrime_eq]; norm_num
  have hP64 : (2 : Nat) ^ 64 < feltPrime := by rw [feltPrime_eq]; norm_num
  have hdata : (chunkBytes (bytesOfString str)).map (fun w => feltOfNat (packBE w)) =
      (chunkBytes (bytesOfString str)).map packBE := by
    refine List.map_congr_left (fun w hw => ?_)
    obtain ⟨hmem, hlen⟩ :=
      chunkBytes_mem (bytesOfString str).length (bytesOfString str) le_rfl w hw
    exact packBE_small (fun b hb => hbyte b (hmem b hb)) hlen
  obtain ⟨hrmem, hrlen⟩ :=
    restBytes_short (bytesOfString str).length (bytesOfString str) le_rfl
  have hpw : feltOfNat (packBE (restBytes (bytesOfString str))) =
      packBE (restBytes (bytesOfString str)) :=
    packBE_small (fun b hb => hbyte b (hrmem b hb)) (by omega)
  have hpl : feltOfNat (restBytes (bytesOfString str)).length =
      (restBytes (bytesOfString str)).length :=
    feltOfNat_small (by omega)
  have hclen : ((chunkBytes (bytesOfString str)).map packBE).length < feltPrime := by
    rw [List.length_map]
    have := chunkBytes_len (bytesOfString str).length (bytesOfString str) le_rfl
    omega
  have hstream : parse_byte_array str ++ rest =
      ((chunkBytes (bytesOfString str)).map packBE).length ::
        ((chunkBytes (bytesOfString str)).map packBE ++
          packBE (restBytes (bytesOfString str)) ::
            (restBytes (bytesOfString str)).length :: rest) := by
    simp only [parse_byte_array, hdata, hpw, hpl, feltOfNat_small hclen]
    simp [List.append_assoc]
  rw [hstream]
  exact ⟨_, refDecode_bytes fuel s _ _ _ rest, Agrees.abytes s str⟩

/-- Master round-trip lemma, by strong induction on the document's size:
a successful `parse_value` encoding of a representable (`jsonWF`),
non-saturating (`f64ok`) JSON value is decoded back by the reference decoder
at any fuel of at least the document's depth, consuming exactly the encoder's
output and agreeing with the original scalars. -/
theorem rt_value : ∀ (N : Nat) (v : Json), sizeOf v ≤ N →
    ∀ (ty : SchemaType) (s : Schema) (out : List Nat),
      parse_value v ty s = .ok out → jsonWF v = true → f64ok v ty s = true →
      ∀ (fuel : Nat) (rest : List Nat), jsonDepth v ≤ fuel →
        ∃ d, refDecode fuel ty s (out ++ rest) = some (d, rest) ∧ Agrees s v ty d := by
  intro N
  induction N with
  | zero =>
    intro v hv
    exfalso
    cases v <;> simp at hv
  | succ N ihN =>
    intro v hv ty s out henc hwf hf64 fuel rest hfuel
    obtain ⟨fuel, rfl⟩ : ∃ f, fuel = f + 1 := by
      have := jsonDepth_pos v
      exact ⟨fuel - 1, by omega⟩
    cases ty with
    | Primitive name =>
      rw [parse_value.eq_def] at henc
      dsimp only at henc
      split at henc
      · split at henc
        · rename_i num heq
          cases henc
          exact rt_uint_case (Or.inl rfl) heq hwf fuel rest
        · exact absurd henc (by simp)
      · split at henc
        · rename_i num heq
          cases henc
          exact rt_uint_case (Or.inr (Or.inl rfl)) heq hwf fuel rest
        · exact absurd henc (by simp)
      · split at henc
        · rename_i num heq
          cases henc
          exact rt_uint_case (Or.inr (Or.inr (Or.inl rfl))) heq hwf fuel rest
        · exact absurd henc (by simp)
      · split at henc
        · rename_i num heq
          cases henc
          exact rt_uint_case (Or.inr (Or.inr (Or.inr rfl))) heq hwf fuel rest
        · exact absurd henc (by simp)
      · split at henc
        · rename_i num heq
          cases henc
          exact rt_int_case (Or.inl rfl) heq hwf fuel rest
        · exact absurd henc (by simp)
      · split at henc
        · rename_i num heq
          cases henc
          exact rt_int_case (Or.inr (Or.inl rfl)) heq hwf fuel rest
        · exact absurd henc (by simp)
      · split at henc
        · rename_i num heq
          cases henc
          exact rt_int_case (Or.inr (Or.inr (Or.inl rfl))) heq hwf fuel rest
        · exact absurd henc (by simp)
      · split at henc
        · rename_i num heq
          cases henc
          exact rt_int_case (Or.inr (Or.inr (Or.inr rfl))) heq hwf fuel rest
        · exact absurd henc (by simp)
      · split at henc
        · rename_i q heq
          cases henc
          exact rt_f64_case heq hf64 fuel rest
        · exact absurd henc (by simp)
      · split at henc
        · rename_i str heq
          cases hfe : feltEncodeStr str with
          | error e =>
            rw [hfe] at henc
            simp [Except.map] at henc
          | ok f =>
            rw [hfe] at henc
            simp only [Except.map] at henc
            cases henc
            exact rt_felt_case heq hfe fuel rest
        · exact absurd henc (by simp)
      · split at henc
        · rename_i str heq
          cases henc
          exact rt_bytes_case heq hwf fuel rest
        · exact absurd henc (by simp)
      · split at henc
        · rename_i b heq
          cases henc
          exact rt_bool_case heq fuel rest
        · exact absurd henc (by simp)
      · exact absurd henc (by simp)
    | Array t =>
      rw [parse_value.eq_def] at henc
      dsimp only at henc
      split at henc
      · rename_i xs harr
        cases hm : parse_elems xs t s with
        | error e =>
          rw [hm] at henc
          simp [Except.map] at henc
        | ok parts =>
          rw [hm] at henc
          simp only [Except.map] at henc
          cases henc
          obtain rfl := asArr_inv harr
          obtain ⟨hlen, hwfl⟩ := jsonWF_arr hwf
          have hfl : f64okList xs t s = true := f64ok_arr hf64 rfl
          have hIH : ∀ x ∈ xs, ∀ (out2 : List Nat),
              parse_value x t s = .ok out2 → jsonWF x = true → f64ok x t s = true →
              ∀ (fl : Nat) (r2 : List Nat), jsonDepth x ≤ fl →
                ∃ d, refDecode fl t s (out2 ++ r2) = some (d, r2) ∧ Agrees s x t d := by
            intro x hx
            have hsz : sizeOf x ≤ N := by
              have h1 := List.sizeOf_lt_of_mem hx
              have h2 : sizeOf (Json.arr xs) = 1 + sizeOf xs := by simp
              omega
            exact ihN x hsz t s
          have hdl : jsonDepthList xs ≤ fuel := by
            have hdv : jsonDepth (Json.arr xs) = 2 + jsonDepthList xs := rfl
            omega
          obtain ⟨ds, hds, has⟩ := rt_elems s t xs parts hIH hm hwfl hfl fuel rest
            (fun x hx => le_trans (jsonDepthList_mem hx) hdl)
          refine ⟨.arrD ds, ?_, Agrees.aarr s xs t ds has⟩
          rw [List.cons_append, refDecode_arr, feltOfNat_small hlen, hds]
      · exact absurd henc (by simp)
    | Span t =>
      rw [parse_value.eq_def] at henc
      dsimp only at henc
      split at henc
      · rename_i xs harr
        cases hm : parse_elems xs t s with
        | error e =>
          rw [hm] at henc
          simp [Except.map] at henc
        | ok parts =>
          rw [hm] at henc
          simp only [Except.map] at henc
          cases henc
          obtain rfl := asArr_inv harr
          obtain ⟨hlen, hwfl⟩ := jsonWF_arr hwf
          have hfl : f64okList xs t s = true := f64ok_span hf64 rfl
          have hIH : ∀ x ∈ xs, ∀ (out2 : List Nat),
              parse_value x t s = .ok out2 → jsonWF x = true → f64ok x t s = true →
              ∀ (fl : Nat) (r2 : List Nat), jsonDepth x ≤ fl →
                ∃ d, refDecode fl t s (out2 ++ r2) = some (d, r2) ∧ Agrees s x t d := by
            intro x hx
            have hsz : sizeOf x ≤ N := by
              have h1 := List.sizeOf_lt_of_mem hx
              have h2 : sizeOf (Json.arr xs) = 1 + sizeOf xs := by simp
              omega
            exact ihN x hsz t s
          have hdl : jsonDepthList xs ≤ fuel := by
            have hdv : jsonDepth (Json.arr xs) = 2 + jsonDepthList xs := rfl
            omega
          obtain ⟨ds, hds, has⟩ := rt_elems s t xs parts hIH hm hwfl hfl fuel rest
            (fun x hx => le_trans (jsonDepthList_mem hx) hdl)
          refine ⟨.arrD ds, ?_, Agrees.aspan s xs t ds has⟩
          rw [List.cons_append, refDecode_span, feltOfNat_small hlen, hds]
      · exact absurd henc (by simp)
    | Struct name =>
      rw [parse_value_struct] at henc
      cases hl : lookupSchema s name with
      | none =>
        rw [parse_schema_none hl] at henc
        exact absurd henc (by simp)
      | some d =>
        rw [parse_schema_some hl] at henc
        have hff : f64okFields v d.fields s = true := f64ok_struct hf64 hl
        have hIH : ∀ (w : Json) (k : String), jsonGet v k = some w →
            ∀ (ty2 : SchemaType) (out2 : List Nat),
              parse_value w ty2 s = .ok out2 → jsonWF w = true → f64ok w ty2 s = true →
              ∀ (fl : Nat) (r2 : List Nat), jsonDepth w ≤ fl →
                ∃ dd, refDecode fl ty2 s (out2 ++ r2) = some (dd, r2) ∧
                  Agrees s w ty2 dd := by
          intro w k hg
          have hsz : sizeOf w ≤ N := by
            have := sizeOf_jsonGet hg
            omega
          exact fun ty2 => ihN w hsz ty2 s
        have hdf : ∀ (w : Json) (k : String), jsonGet v k = some w →
            jsonDepth w ≤ fuel := by
          intro w k hg
          have := jsonDepth_get hg
          omega
        obtain ⟨ds, hds, has⟩ :=
          rt_fields s v name d.fields out hIH henc hwf hff fuel rest hdf
        refine ⟨.objD ds, ?_, Agrees.aobj s v name d ds hl has⟩
        rw [refDecode_struct hl, hds]

/-- C1 (amended): whenever `process_json_args` succeeds on a representable
(`jsonWF`) JSON document whose `F64` fields do not saturate Rust's `as i64`
cast (`f64ok`), the reference decode of the produced flat field-element
sequence against the same schema shape — at any fuel of at least the
document's nesting depth — consumes the sequence exactly and reproduces the
original scalar values (the `Agrees` relation): exactly for unsigned/signed
integers, booleans and field elements, and to within `2^-32` for fixed-point
decimals. As literally stated the claim fails for saturating `F64` values;
see the counterexample. -/
theorem encode_reference_decode_roundtrip
    (s : Schema) (doc : Json) (out : List Nat)
    (henc : processJsonArgs doc s = .ok ⟨[FuncArg.Array out]⟩)
    (hwf : jsonWF doc = true)
    (hok : f64ok doc (.Struct s.cairo_input) s = true)
    (fuel : Nat) (hfuel : jsonDepth doc ≤ fuel) :
    ∃ d, refDecode fuel (.Struct s.cairo_input) s out = some (d, []) ∧
      Agrees s doc (.Struct s.cairo_input) d := by
  rw [processJsonArgs] at henc
  by_cases he : isEmptyObj doc = true
  · rw [if_pos he] at henc
    simp at henc
  · rw [if_neg he] at henc
    cases hps : parse_schema doc s.cairo_input s with
    | error e =>
      rw [hps] at henc
      simp [Except.map] at henc
    | ok parsed =>
      rw [hps] at henc
      simp only [Except.map, Except.ok.injEq, FuncArgs.mk.injEq, List.cons.injEq,
        FuncArg.Array.injEq, and_true] at henc
      have henc2 : parse_value doc (.Struct s.cairo_input) s = .ok out := by
        rw [parse_value_struct, hps, henc]
      obtain ⟨d, hd, ha⟩ :=
        rt_value (sizeOf doc) doc le_rfl (.Struct s.cairo_input) s out henc2 hwf hok
          fuel [] hfuel
      rw [List.append_nil] at hd
      exact ⟨d, hd, ha⟩

/-- Witness for C1 (amended): the document `{"x": 7}` against a
one-`u32`-field record encodes to `[7]`, and the reference decode recovers an
agreeing value. -/
theorem encode_reference_decode_roundtrip_witness :
    processJsonArgs (Json.obj [("x", Json.num (.uintN 7))])
        ⟨[("Input", ⟨[⟨"x", SchemaType.Primitive "u32"⟩]⟩)], "Input", ""⟩ =
      .ok ⟨[FuncArg.Array [7]]⟩ ∧
    jsonWF (Json.obj [("x", Json.num (.uintN 7))]) = true ∧
    ∃ d, refDecode 4 (.Struct "Input")
        ⟨[("Input", ⟨[⟨"x", SchemaType.Primitive "u32"⟩]⟩)], "Input", ""⟩ [7] =
        some (d, []) ∧
      Agrees ⟨[("Input", ⟨[⟨"x", SchemaType.Primitive "u32"⟩]⟩)], "Input", ""⟩
        (Json.obj [("x", Json.num (.uintN 7))]) (.Struct "Input") d := by
  have henc : processJsonArgs (Json.obj [("x", Json.num (.uintN 7))])
      ⟨[("Input", ⟨[⟨"x", SchemaType.Primitive "u32"⟩]⟩)], "Input", ""⟩ =
      .ok ⟨[FuncArg.Array [7]]⟩ := by
    simp [processJsonArgs, isEmptyObj, parse_schema, parse_fields, parse_value,
      lookupSchema, jsonGet, lookupField, Json.asU64, Except.map, Except.bind, bind, pure]
    norm_num [feltOfNat, feltPrime]
  have hwf : jsonWF (Json.obj [("x", Json.num (.uintN 7))]) = true := by
    simp [jsonWF, jsonWFFields]
  refine ⟨henc, hwf, ?_⟩
  exact encode_reference_decode_roundtrip
    ⟨[("Input", ⟨[⟨"x", SchemaType.Primitive "u32"⟩]⟩)], "Input", ""⟩
    (Json.obj [("x", Json.num (.uintN 7))]) [7] henc hwf
    (by simp [f64ok, f64okFields, lookupSchema, jsonGet, lookupField])
    4 (by norm_num [jsonDepth, jsonDepthFields])

/-- Counterexample to C1 as literally stated: the double `2^32` supplied for
an `F64` field saturates the `as i64` cast — the encoder emits `2^63 - 1`,
which decodes to `(2^63 - 1) / 2^32` (about `2^31`), nowhere near the
original `2^32`; the `2^-32`-resolution round trip fails. -/
theorem roundtrip_f64_saturation_cex :
    processJsonArgs (Json.obj [("x", Json.num (.floatN ((2 : Rat) ^ 32)))])
        ⟨[("Input", ⟨[⟨"x", SchemaType.Primitive "F64"⟩]⟩)], "Input", ""⟩ =
      .ok ⟨[FuncArg.Array [2 ^ 63 - 1]]⟩ ∧
    refDecode 3 (SchemaType.Struct "Input")
        ⟨[("Input", ⟨[⟨"x", SchemaType.Primitive "F64"⟩]⟩)], "Input", ""⟩
        [2 ^ 63 - 1] =
      some (.objD [("x", .fixedD (((2 : Rat) ^ 63 - 1) / 2 ^ 32))], []) ∧
    ¬ |((2 : Rat) ^ 32) - ((2 : Rat) ^ 63 - 1) / 2 ^ 32| < (1 : Rat) / 2 ^ 32 := by
  have hPi : ((feltPrime : Nat) : Int) =
      3618502788666131213697322783095070105623107215331596699973092056135872020481 := by
    rw [feltPrime_eq]
    norm_num
  have hcast : f64AsI64 ((2 : Rat) ^ 32 * 2 ^ 32) = 2 ^ 63 - 1 := by
    rw [f64AsI64, if_neg (by norm_num), if_pos (by norm_num)]
  have hfelt : feltOfInt ((2 : Int) ^ 63 - 1) = 2 ^ 63 - 1 := by
    rw [feltOfInt, Int.emod_eq_of_lt (by norm_num) (by rw [hPi]; norm_num)]
    norm_num
    decide
  have hsf : signedFelt (2 ^ 63 - 1) = (2 : Int) ^ 63 - 1 := by
    rw [signedFelt, if_pos (by rw [feltPrime_eq]; norm_num)]
    norm_num
  refine ⟨?_, ?_, ?_⟩
  · rw [processJsonArgs, if_neg (by simp [isEmptyObj])]
    have hps : parse_schema (Json.obj [("x", Json.num (.floatN ((2 : Rat) ^ 32)))])
        "Input" ⟨[("Input", ⟨[⟨"x", SchemaType.Primitive "F64"⟩]⟩)], "Input", ""⟩ =
        .ok [2 ^ 63 - 1] := by
      rw [parse_schema_some (d := ⟨[⟨"x", SchemaType.Primitive "F64"⟩]⟩)
        (by simp [lookupSchema])]
      rw [parse_fields_cons_some (w := Json.num (.floatN ((2 : Rat) ^ 32)))
        (by simp [jsonGet, lookupField])]
      dsimp only
      rw [parse_value_f64 (v := Json.num (.floatN ((2 : Rat) ^ 32)))
        (q := (2 : Rat) ^ 32) rfl, hcast, hfelt, parse_fields]
      simp [Except.bind, bind]
    dsimp only
    rw [hps]
    simp [Except.map]
  · have hl : lookupSchema ⟨[("Input", ⟨[⟨"x", SchemaType.Primitive "F64"⟩]⟩)], "Input", ""⟩
        "Input" = some ⟨[⟨"x", SchemaType.Primitive "F64"⟩]⟩ := by
      simp [lookupSchema]
    have h1 : refDecode 2 (SchemaType.Primitive "F64")
        ⟨[("Input", ⟨[⟨"x", SchemaType.Primitive "F64"⟩]⟩)], "Input", ""⟩
        [2 ^ 63 - 1] =
        some (.fixedD ((signedFelt (2 ^ 63 - 1) : Rat) / 2 ^ 32), []) :=
      refDecode_f64 1 _ (2 ^ 63 - 1) []
    rw [hsf] at h1
    have h1a : ((((2 : Int) ^ 63 - 1 : Int)) : Rat) = (2 : Rat) ^ 63 - 1 := by
      push_cast
      ring
    rw [h1a] at h1
    have h2 : refDecodeFields 2 [⟨"x", SchemaType.Primitive "F64"⟩]
        ⟨[("Input", ⟨[⟨"x", SchemaType.Primitive "F64"⟩]⟩)], "Input", ""⟩
        [2 ^ 63 - 1] =
        some ([("x", DecVal.fixedD (((2 : Rat) ^ 63 - 1) / 2 ^ 32))], []) := by
      rw [refDecodeFields_cons]
      dsimp only
      rw [h1]
      dsimp only
      rw [refDecodeFields_nil]
    have h3 : refDecode (2 + 1) (SchemaType.Struct "Input")
        ⟨[("Input", ⟨[⟨"x", SchemaType.Primitive "F64"⟩]⟩)], "Input", ""⟩
        [2 ^ 63 - 1] =
        some (.objD [("x", DecVal.fixedD (((2 : Rat) ^ 63 - 1) / 2 ^ 32))], []) := by
      rw [refDecode_struct hl, h2]
    exact h3
  · rw [not_lt, abs_of_pos (by norm_num)]
    rw [show ((2 : Rat) ^ 32) - ((2 : Rat) ^ 63 - 1) / 2 ^ 32 =
      ((2 : Rat) ^ 63 + 1) / 2 ^ 32 by ring]
    rw [div_le_div_iff (by norm_num) (by norm_num)]
    norm_num
